import Mathlib

/-!
Verification of the dice-notation evaluator in `src/roll.ts`
(lexer → parser → roll counter → evaluator → `roll` facade).

Modelling conventions for the shallow embedding:
* JS `number` is modelled as `ℚ` (exact rationals).  All arithmetic the
  claims exercise is exact in both worlds; floating-point rounding and the
  `Infinity` produced by JS division by zero are not modelled, and theorems
  about division carry explicit nonzero-divisor hypotheses.
* The caller-supplied randomness source `random(max)` is a stateful
  function; it is embedded as a state-passing function
  `step : σ → Nat → ℚ × σ` for an arbitrary state type `σ`.
* Thrown exceptions become `Except` values.
* Functions whose JS form recurses on a cursor are embedded with an
  explicit fuel parameter; the fuel chosen by the wrappers is an upper
  bound on the call depth, so the artificial out-of-fuel branch is
  unreachable on the inputs the theorems talk about.
-/

/-- Decidable equality for `Except`, so that concrete runs of the embedded
functions can be checked by `decide`. -/
instance {ε α : Type _} [DecidableEq ε] [DecidableEq α] :
    DecidableEq (Except ε α) := fun x y =>
  match x, y with
  | .ok a, .ok b =>
    if h : a = b then .isTrue (by rw [h])
    else .isFalse (by intro hh; cases hh; exact h rfl)
  | .error a, .error b =>
    if h : a = b then .isTrue (by rw [h])
    else .isFalse (by intro hh; cases hh; exact h rfl)
  | .ok _, .error _ => .isFalse (by intro hh; cases hh)
  | .error _, .ok _ => .isFalse (by intro hh; cases hh)

namespace Roll

/-- Token kinds, as in the TS union
`OperatorType | DiceModifierType | "NUMBER" | "DICE" | "PAREN_OPEN" | "PAREN_CLOSE" | "EOF"`. -/
inductive TokenType where
  | PLUS | MINUS | STAR | SLASH
  | KEEP_HIGHEST | KEEP_LOWEST
  | NUMBER | DICE | PAREN_OPEN | PAREN_CLOSE | EOF
deriving DecidableEq, Repr

/-- `OperatorType` of the source: the four arithmetic operator token kinds. -/
inductive OperatorType where
  | PLUS | MINUS | STAR | SLASH
deriving DecidableEq, Repr

/-- `DiceModifierType` of the source. -/
inductive DiceModifierType where
  | KEEP_HIGHEST | KEEP_LOWEST
deriving DecidableEq, Repr

/-- Name of a token type, as it appears in TS string literals
(used in parser error messages). -/
def tokenTypeName : TokenType → String
  | .PLUS => "PLUS"
  | .MINUS => "MINUS"
  | .STAR => "STAR"
  | .SLASH => "SLASH"
  | .KEEP_HIGHEST => "KEEP_HIGHEST"
  | .KEEP_LOWEST => "KEEP_LOWEST"
  | .NUMBER => "NUMBER"
  | .DICE => "DICE"
  | .PAREN_OPEN => "PAREN_OPEN"
  | .PAREN_CLOSE => "PAREN_CLOSE"
  | .EOF => "EOF"

/-- A token.  In TS only `NUMBER` tokens carry `literal`; here every token
has the field and non-`NUMBER` tokens leave it at `0` (it is never read for
them). -/
structure Token where
  type : TokenType
  lexeme : String
  offset : Nat
  literal : Nat := 0
deriving DecidableEq, Repr

/-- The lexical error object: `DiceNotationError(message, expression, offset)`.
Only the constructor arguments are modelled; the decorated `super(...)`
message text and the `console.log` call are presentation only. -/
structure DiceNotationError where
  message : String
  expression : String
  offset : Nat
deriving DecidableEq, Repr

/-- `isDigit`: `char >= "0" && char <= "9"` (JS single-character string
comparison is code-unit order, i.e. `Char` order). -/
def isDigit (c : Char) : Bool :=
  '0' ≤ c ∧ c ≤ '9'

/-- The character class of the regex `/\s/` used by the lexer to skip
whitespace: ASCII whitespace plus the Unicode space separators, line/para
separators and the BOM. -/
def isSpaceChar (c : Char) : Bool :=
  c = ' ' ∨ c = '\t' ∨ c = '\n' ∨ c = '\x0b' ∨ c = '\x0c' ∨ c = '\r' ∨
  c = ' ' ∨ c = ' ' ∨ (' ' ≤ c ∧ c ≤ ' ') ∨
  c = ' ' ∨ c = ' ' ∨ c = ' ' ∨ c = ' ' ∨
  c = '　' ∨ c = '﻿'

/-- Value of a digit character. -/
def digitVal (c : Char) : Nat := c.toNat - '0'.toNat

/-- `parseInt` on a string of decimal digits. -/
def natOfDigits (ds : List Char) : Nat :=
  ds.foldl (fun acc c => 10 * acc + digitVal c) 0

/-- One iteration of the `while (offset < expression.length)` loop of
`lex`, on current character `c` with the characters `cs` after it; `go` is
the rest of the scan (applied to the remaining characters and the updated
offset).  Returns the tokens produced, the errors collected (both in scan
order) and the final offset. -/
def lexCons (expr : String) (c : Char) (cs : List Char) (offset : Nat)
    (go : List Char → Nat → List Token × List DiceNotationError × Nat) :
    List Token × List DiceNotationError × Nat :=
  if isSpaceChar c then
    go cs (offset + 1)
  else if isDigit c then
    -- maximal run of digits starting at `c`; `parseInt` gives `literal`
    let run := (c :: cs).takeWhile isDigit
    let rest := (c :: cs).dropWhile isDigit
    let res := go rest (offset + run.length)
    (⟨.NUMBER, String.mk run, offset, natOfDigits run⟩ :: res.1, res.2)
  else if c = 'd' then
    let res := go cs (offset + 1)
    (⟨.DICE, "d", offset, 0⟩ :: res.1, res.2)
  else if c = '+' then
    let res := go cs (offset + 1)
    (⟨.PLUS, "+", offset, 0⟩ :: res.1, res.2)
  else if c = '-' then
    let res := go cs (offset + 1)
    (⟨.MINUS, "-", offset, 0⟩ :: res.1, res.2)
  else if c = '*' then
    let res := go cs (offset + 1)
    (⟨.STAR, "*", offset, 0⟩ :: res.1, res.2)
  else if c = '/' then
    let res := go cs (offset + 1)
    (⟨.SLASH, "/", offset, 0⟩ :: res.1, res.2)
  else if c = '(' then
    let res := go cs (offset + 1)
    (⟨.PAREN_OPEN, "(", offset, 0⟩ :: res.1, res.2)
  else if c = ')' then
    let res := go cs (offset + 1)
    (⟨.PAREN_CLOSE, ")", offset, 0⟩ :: res.1, res.2)
  else if c = 'k' then
    -- `offset++` happens before the switch, so the pushed token / error
    -- carries `offset + 1`; the KEEP_LOWEST lexeme really is "kh" in the
    -- source.  In the default case the following character is NOT
    -- consumed (no `offset++` there): scanning resumes at it.
    match cs with
    | 'h' :: cs2 =>
      let res := go cs2 (offset + 2)
      (⟨.KEEP_HIGHEST, "kh", offset + 1, 0⟩ :: res.1, res.2)
    | 'l' :: cs2 =>
      let res := go cs2 (offset + 2)
      (⟨.KEEP_LOWEST, "kh", offset + 1, 0⟩ :: res.1, res.2)
    | cs2 =>
      let res := go cs2 (offset + 1)
      (res.1, ⟨"Unexpected k", expr, offset + 1⟩ :: res.2.1, res.2.2)
  else if c = 'h' then
    let res := go cs (offset + 1)
    (⟨.KEEP_HIGHEST, "h", offset, 0⟩ :: res.1, res.2)
  else if c = 'l' then
    let res := go cs (offset + 1)
    (⟨.KEEP_LOWEST, "l", offset, 0⟩ :: res.1, res.2)
  else
    let res := go cs (offset + 1)
    (res.1, ⟨"Unexpected \x27" ++ c.toString ++ "\x27!", expr, offset⟩ :: res.2.1,
      res.2.2)

/-- The whole scan loop of `lex`, over the remaining characters `cs`
(an invariant of the call sites: `cs = expression.data.drop offset`).
`fuel` bounds the number of loop iterations; each iteration consumes at
least one character, so any `fuel > cs.length` is enough. -/
def lexGo (expr : String) : Nat → List Char → Nat →
    List Token × List DiceNotationError × Nat
  | 0, _, offset => ([], [], offset)
  | _ + 1, [], offset => ([], [], offset)
  | fuel + 1, c :: cs, offset => lexCons expr c cs offset (lexGo expr fuel)

/-- `lex(expression)`: runs the scan; if any errors were collected, throws
the FIRST one; otherwise appends the final `EOF` token (empty lexeme, at
the final offset). -/
def lex (expression : String) : Except DiceNotationError (List Token) :=
  let res := lexGo expression (expression.data.length + 1) expression.data 0
  match res.2.1 with
  | e :: _ => .error e
  | [] => .ok (res.1 ++ [⟨.EOF, "", res.2.2, 0⟩])

/-- AST nodes.  `DICE_BINARY_OP.left` is always a bare `DiceNode` in the TS
types, so the `diceBinaryOp` constructor carries its two fields inline. -/
inductive ASTNode where
  | number (value : Nat)
  | dice (numDice numSides : Nat)
  | binaryOp (left : ASTNode) (operator : OperatorType) (right : ASTNode)
  | diceBinaryOp (numDice numSides : Nat) (operator : DiceModifierType)
      (right : ASTNode)
  | grouping (expression : ASTNode)
deriving DecidableEq, Repr

/-- Error text of the internal out-of-fuel branch of the embedded parser;
unreachable when the wrapper supplies enough fuel. -/
def fuelMsg : String := "Internal: fuel exhausted"

/-- Error text for `peek()` past the end of the token array (a TS crash);
unreachable on `lex` output, which always ends in `EOF`. -/
def endMsg : String := "Internal: read past end of tokens"

/-- The lookahead `tokens[current + 1]?.type === "DICE"` of `primary()`
(out of bounds gives `undefined`, which is not `"DICE"`). -/
def nextIsDice : List Token → Bool
  | t2 :: _ => t2.type = .DICE
  | [] => false

/-- `expect(type)`: consume a token of the given type or throw
`Expected ${type} at offset ${peek().offset}`. -/
def expectTok (ty : TokenType) (ts : List Token) :
    Except String (Token × List Token) :=
  match ts with
  | t :: rest =>
    if t.type = ty then .ok (t, rest)
    else .error ("Expected " ++ tokenTypeName ty ++ " at offset " ++
      toString t.offset)
  | [] => .error endMsg

mutual

/-- `term()`: parse a `factor`, then the `+`/`-` loop. -/
def termF : Nat → List Token → Except String (ASTNode × List Token)
  | 0, _ => .error fuelMsg
  | fuel + 1, ts => do
    let r ← factorF fuel ts
    termLoopF fuel r.1 r.2

/-- The `while (match("MINUS", "PLUS"))` loop of `term()`, with the
accumulated expression as the left operand. -/
def termLoopF : Nat → ASTNode → List Token →
    Except String (ASTNode × List Token)
  | 0, _, _ => .error fuelMsg
  | fuel + 1, acc, ts =>
    match ts with
    | t :: rest =>
      if t.type = .MINUS ∨ t.type = .PLUS then do
        let op : OperatorType := if t.type = .MINUS then .MINUS else .PLUS
        let r ← factorF fuel rest
        termLoopF fuel (.binaryOp acc op r.1) r.2
      else .ok (acc, ts)
    | [] => .error endMsg

/-- `factor()`: parse a `primary`, then the `*`/`/` loop. -/
def factorF : Nat → List Token → Except String (ASTNode × List Token)
  | 0, _ => .error fuelMsg
  | fuel + 1, ts => do
    let r ← primaryF fuel ts
    factorLoopF fuel r.1 r.2

/-- The `while (match("STAR", "SLASH"))` loop of `factor()`. -/
def factorLoopF : Nat → ASTNode → List Token →
    Except String (ASTNode × List Token)
  | 0, _, _ => .error fuelMsg
  | fuel + 1, acc, ts =>
    match ts with
    | t :: rest =>
      if t.type = .STAR ∨ t.type = .SLASH then do
        let op : OperatorType := if t.type = .STAR then .STAR else .SLASH
        let r ← primaryF fuel rest
        factorLoopF fuel (.binaryOp acc op r.1) r.2
      else .ok (acc, ts)
    | [] => .error endMsg

/-- `primary()`: dice lookahead (`DICE`, or `NUMBER` immediately followed
by `DICE`), then standalone `NUMBER`, then the (dead, but kept) bare
`DICE` branch, then `(` grouping; otherwise
`Unexpected ${token.type} at offset ${token.offset}`. -/
def primaryF : Nat → List Token → Except String (ASTNode × List Token)
  | 0, _ => .error fuelMsg
  | fuel + 1, ts =>
    match ts with
    | [] => .error endMsg
    | t :: rest =>
      if t.type = .DICE ∨ (t.type = .NUMBER ∧ nextIsDice rest) then
        diceF fuel (t :: rest)
      else if t.type = .NUMBER then
        .ok (.number t.literal, rest)
      else if t.type = .DICE then
        -- unreachable: the lookahead above already captured `DICE`
        match expectTok .NUMBER rest with
        | .ok r => .ok (.dice 1 r.1.literal, r.2)
        | .error e => .error e
      else if t.type = .PAREN_OPEN then do
        let r ← termF fuel rest
        let r2 ← expectTok .PAREN_CLOSE r.2
        .ok (.grouping r.1, r2.2)
      else
        .error ("Unexpected " ++ tokenTypeName t.type ++ " at offset " ++
          toString t.offset)

/-- `dice()`: optional leading `NUMBER` (default 1), mandatory `DICE`,
mandatory `NUMBER` for the sides, then an optional keep modifier whose
count is a `primary`. -/
def diceF : Nat → List Token → Except String (ASTNode × List Token)
  | 0, _ => .error fuelMsg
  | fuel + 1, ts => do
    let first : Nat × List Token :=
      match ts with
      | t :: rest => if t.type = .NUMBER then (t.literal, rest) else (1, ts)
      | [] => (1, ts)
    let r1 ← expectTok .DICE first.2
    let r2 ← expectTok .NUMBER r1.2
    match r2.2 with
    | t :: rest =>
      if t.type = .KEEP_HIGHEST ∨ t.type = .KEEP_LOWEST then do
        let m : DiceModifierType :=
          if t.type = .KEEP_HIGHEST then .KEEP_HIGHEST else .KEEP_LOWEST
        let r3 ← primaryF fuel rest
        .ok (.diceBinaryOp first.1 r2.1.literal m r3.1, r3.2)
      else .ok (.dice first.1 r2.1.literal, r2.2)
    | [] => .ok (.dice first.1 r2.1.literal, r2.2)

end

/-- Fuel supplied to the top-level `term()` call: the parser's recursion
depth is bounded by a small multiple of the token count (every chain of
four nested calls consumes at least one token), so this is always enough. -/
def parseFuel (ts : List Token) : Nat := 8 * ts.length + 8

/-- `parse(tokens)`: parse the top-level `term`.  When the next token is
not `EOF` the source merely logs `console.warn("Could not parse whole
expression")` and returns the AST anyway, so the remainder is dropped. -/
def parse (ts : List Token) : Except String ASTNode :=
  (termF (parseFuel ts) ts).map (·.1)

/-- The evaluation result.  `rolls` is present (`some`) only on a direct
dice evaluation (and passed through `GROUPING`).  The `children?` field of
the TS type is never assigned anywhere in the source and is omitted. -/
structure Result where
  result : ℚ
  rolls : Option (List ℚ)
  explanation : String
deriving DecidableEq, Repr

/-- JS template-literal rendering `${q}` of a number, for the integral
values the program actually prints (non-integral values would use the JS
shortest-decimal form, which no claim observes; they are rendered here as
`num/den`). -/
def numToStr (q : ℚ) : String :=
  if q.den = 1 then toString q.num else toString q.num ++ "/" ++ toString q.den

/-- `sum`: `arr.reduce((a, b) => a + b, 0)`. -/
def sum (l : List ℚ) : ℚ := l.foldl (· + ·) 0

/-- `Array.from({ length: numDice }, () => random(numSides))`: `numDice`
sequential invocations of the randomness source, in order. -/
def rollsFrom {σ : Type} (step : σ → Nat → ℚ × σ) (numSides : Nat) :
    Nat → σ → List ℚ × σ
  | 0, s => ([], s)
  | n + 1, s =>
    let r := step s numSides
    let rec' := rollsFrom step numSides n r.2
    (r.1 :: rec'.1, rec'.2)

/-- Truncation toward zero, as `ToIntegerOrInfinity` does for a finite
JS number (the implicit conversion applied by `Array.prototype.slice`). -/
def jsTrunc (q : ℚ) : Int :=
  if 0 ≤ q then q.floor else q.ceil

/-- `arr.slice(start)` for a numeric `start`: negative values count from
the end (clamped at 0), nonnegative values are clamped at the length. -/
def jsSliceStart (l : List ℚ) (q : ℚ) : List ℚ :=
  let i := jsTrunc q
  let start : Nat :=
    if i < 0 then (max ((l.length : Int) + i) 0).toNat
    else min i.toNat l.length
  l.drop start

/-- `arr.slice(0, stop)` for a numeric `stop`: negative values count from
the end (clamped at 0), nonnegative values are clamped at the length. -/
def jsSliceZeroEnd (l : List ℚ) (q : ℚ) : List ℚ :=
  let i := jsTrunc q
  let stop : Nat :=
    if i < 0 then ((l.length : Int) + i).toNat
    else min i.toNat l.length
  l.take stop

/-- `rolls.toSorted((a, b) => a - b)`: the rolls sorted ascending.  Any
sort w.r.t. `≤` produces this list (elements are plain values, so equal
elements are indistinguishable and the ascending rearrangement is unique). -/
def jsSort (l : List ℚ) : List ℚ := l.insertionSort (· ≤ ·)

/-- Evaluation of a `DICE` node: roll `numDice` dice of `numSides` sides.
`evaluate` uses this both for a standalone `DICE` node and for
`evaluate(node.left)` of a `DICE_BINARY_OP` (whose `left` is always a
`DICE` node by the TS types). -/
def evalDice {σ : Type} (step : σ → Nat → ℚ × σ) (numDice numSides : Nat)
    (s : σ) : Result × σ :=
  let r := rollsFrom step numSides numDice s
  (⟨sum r.1, some r.1,
    "[" ++ String.intercalate " + " (r.1.map numToStr) ++ "]"⟩, r.2)

/-- `evaluate(node, random)`.  The state of the randomness source is
threaded explicitly; evaluation order (left fully before right) matches
the source.  The `?? left.result` fallbacks in the explanation templates
never fire (`explanation` is set on every path) and are dropped. -/
def evaluate {σ : Type} (step : σ → Nat → ℚ × σ) :
    ASTNode → σ → Result × σ
  | .number v, s => (⟨(v : ℚ), none, toString v⟩, s)
  | .dice numDice numSides, s => evalDice step numDice numSides s
  | .binaryOp l op r, s =>
    let lr := evaluate step l s
    let rr := evaluate step r lr.2
    let value : ℚ :=
      match op with
      | .PLUS => lr.1.result + rr.1.result
      | .MINUS => lr.1.result - rr.1.result
      | .STAR => lr.1.result * rr.1.result
      | .SLASH => lr.1.result / rr.1.result
    let opStr : String :=
      match op with
      | .PLUS => "+"
      | .MINUS => "-"
      | .STAR => "*"
      | .SLASH => "/"
    (⟨value, none,
      lr.1.explanation ++ " " ++ opStr ++ " " ++ rr.1.explanation⟩, rr.2)
  | .diceBinaryOp numDice numSides op r, s =>
    let lr := evalDice step numDice numSides s
    let rr := evaluate step r lr.2
    let rolls := jsSort (lr.1.rolls.getD [])
    match op with
    | .KEEP_HIGHEST =>
      (⟨sum (jsSliceStart rolls (-rr.1.result)), none,
        lr.1.explanation ++ "kh" ++ rr.1.explanation⟩, rr.2)
    | .KEEP_LOWEST =>
      (⟨sum (jsSliceZeroEnd rolls rr.1.result), none,
        lr.1.explanation ++ "kl" ++ rr.1.explanation⟩, rr.2)
  | .grouping e, s =>
    let r := evaluate step e s
    (⟨r.1.result, r.1.rolls, "(" ++ r.1.explanation ++ ")"⟩, r.2)

/-- `countRolls(ast)`: `NUMBER` contributes 1, `DICE` its `numDice`,
the binary and grouping nodes recurse.  `countRolls(ast.left)` of a
`DICE_BINARY_OP` is the `DICE` case, i.e. `numDice`.  (The defensive
unknown-node branch of the source is unreachable on the closed union.) -/
def countRolls : ASTNode → Nat
  | .number _ => 1
  | .dice numDice _ => numDice
  | .binaryOp l _ r => countRolls l + countRolls r
  | .diceBinaryOp numDice _ _ r => numDice + countRolls r
  | .grouping e => countRolls e

/-- The errors `roll` can throw: the lexical `DiceNotationError`, the
generic `Error` thrown by the parser (message only), and
`TooManyDiceError` with its `dice` count. -/
inductive RollError where
  | lexical (e : DiceNotationError)
  | parseFail (message : String)
  | tooManyDice (dice : Nat)
deriving DecidableEq, Repr

/-- `roll(expression, { random, maxRolls })`.  `maxRolls` is an optional
JS number; the guard is `if (maxRolls)`, i.e. the limit is checked only
when `maxRolls` is present AND truthy (nonzero).  The default system
randomness source is not modelled: the theorems always pass a source. -/
def roll {σ : Type} (expression : String) (step : σ → Nat → ℚ × σ) (s0 : σ)
    (maxRolls : Option ℚ := none) : Except RollError Result :=
  match lex expression with
  | .error e => .error (.lexical e)
  | .ok tokens =>
    match parse tokens with
    | .error msg => .error (.parseFail msg)
    | .ok ast =>
      let pre : Except RollError Unit :=
        match maxRolls with
        | some m =>
          if m ≠ 0 then
            if (countRolls ast : ℚ) > m then .error (.tooManyDice (countRolls ast))
            else .ok ()
          else .ok ()
        | none => .ok ()
      match pre with
      | .error e => .error e
      | .ok _ => .ok (evaluate step ast s0).1

/-- The deterministic sequence-based randomness source of the tests:
yields the given numbers in order, ignoring the `max` argument.  (The
generator returns `undefined` past the end of the list; no claim
exercises that, and the model returns `0` there.) -/
def seqStep (s : List ℚ) (_max : Nat) : ℚ × List ℚ :=
  (s.headD 0, s.tail)

/-!  General lemmas about the embedded definitions. -/

/-- `foldl (+) a l = a + foldl (+) 0 l`: shifting the accumulator out of a
left fold of addition. -/
theorem foldl_add_shift (l : List ℚ) (a : ℚ) :
    l.foldl (· + ·) a = a + l.foldl (· + ·) 0 := by
  induction l generalizing a with
  | nil => simp
  | cons x l ih =>
    simp only [List.foldl_cons]
    rw [ih (a + x), ih (0 + x)]
    ring

/-- `sum` agrees with `List.sum`. -/
theorem sum_eq_listSum (l : List ℚ) : sum l = l.sum := by
  induction l with
  | nil => rfl
  | cons x l ih =>
    simp only [sum, List.foldl_cons, List.sum_cons] at *
    rw [foldl_add_shift, ih]
    ring

/-- `sum` is invariant under permutation. -/
theorem sum_perm {l1 l2 : List ℚ} (h : l1.Perm l2) : sum l1 = sum l2 := by
  rw [sum_eq_listSum, sum_eq_listSum]
  exact h.sum_eq

/-- Sorting the rolls does not change their sum. -/
theorem sum_jsSort (l : List ℚ) : sum (jsSort l) = sum l :=
  sum_perm (List.perm_insertionSort _ l)

/-- `jsSort` really is the ascending rearrangement. -/
theorem jsSort_sorted_perm (l : List ℚ) :
    List.Sorted (· ≤ ·) (jsSort l) ∧ (jsSort l).Perm l :=
  ⟨List.sorted_insertionSort _ l, List.perm_insertionSort _ l⟩

/-- Truncation of `0` is `0`. -/
theorem jsTrunc_zero : jsTrunc 0 = 0 := by with_unfolding_all decide

/-- Truncation of a natural-number value is itself. -/
theorem jsTrunc_natCast (k : Nat) : jsTrunc (k : ℚ) = (k : Int) := by
  rw [jsTrunc, if_pos (by positivity), Rat.floor, Rat.den_natCast]
  simp

/-- Truncation of a negated natural-number value. -/
theorem jsTrunc_neg_natCast (k : Nat) (hk : 1 ≤ k) :
    jsTrunc (-(k : ℚ)) = -(k : Int) := by
  have hlt : (-(k : ℚ)) < 0 := by
    simp only [neg_neg, Left.neg_neg_iff]
    exact_mod_cast hk
  rw [jsTrunc, if_neg (not_le.mpr hlt), Rat.ceil, Rat.den_neg_eq_den,
    Rat.den_natCast, if_pos rfl, Rat.num_neg_eq_neg_num, Rat.num_natCast]

/-- `arr.slice(0)` keeps the whole array. -/
theorem jsSliceStart_zero (l : List ℚ) : jsSliceStart l 0 = l := by
  simp [jsSliceStart, jsTrunc_zero]

/-- `arr.slice(0, 0)` is empty. -/
theorem jsSliceZeroEnd_zero (l : List ℚ) : jsSliceZeroEnd l 0 = [] := by
  simp [jsSliceZeroEnd, jsTrunc_zero]

/-!  Claims. -/

/-- Claim C5 (confirmed): lexing `"kh"` yields a `KEEP_HIGHEST` token with
lexeme `"kh"`, and lexing `"kl"` yields a `KEEP_LOWEST` token whose lexeme
is also the string `"kh"` (not `"kl"`); only the token type distinguishes
the two modifiers. -/
theorem c5_keep_lowest_lexeme_is_kh :
    lex "kh" = .ok [⟨.KEEP_HIGHEST, "kh", 1, 0⟩, ⟨.EOF, "", 2, 0⟩] ∧
    lex "kl" = .ok [⟨.KEEP_LOWEST, "kh", 1, 0⟩, ⟨.EOF, "", 2, 0⟩] ∧
    ("kh" : String) ≠ "kl" := by
  refine ⟨?_, ?_, ?_⟩ <;> with_unfolding_all decide

/-- Claim C7 (confirmed): whenever the top-level `term` parse of a token
list succeeds, `parse` returns that AST, whatever tokens remain (the
non-`EOF` remainder is only a `console.warn`); concretely, the trailing
`3` in `"1 + 2 3"` is ignored and `roll` succeeds with 3. -/
theorem c7_trailing_tokens_ignored :
    (∀ (ts : List Token) (ast : ASTNode) (rest : List Token),
      termF (parseFuel ts) ts = .ok (ast, rest) → parse ts = .ok ast) ∧
    roll "1 + 2 3" seqStep ([] : List ℚ) = .ok ⟨3, none, "1 + 2"⟩ := by
  constructor
  · intro ts ast rest h
    simp [parse, h, Except.map]
  · with_unfolding_all decide

/-- Witness for C7: the token list of `"1 + 2 3"` has a parseable prefix
followed by a stray `NUMBER`, and `parse` succeeds on it. -/
theorem c7_trailing_tokens_ignored_witness :
    parse [⟨.NUMBER, "1", 0, 1⟩, ⟨.PLUS, "+", 2, 0⟩, ⟨.NUMBER, "2", 4, 2⟩,
      ⟨.NUMBER, "3", 6, 3⟩, ⟨.EOF, "", 7, 0⟩] =
      .ok (.binaryOp (.number 1) .PLUS (.number 2)) :=
  c7_trailing_tokens_ignored.1 _ _
    [⟨.NUMBER, "3", 6, 3⟩, ⟨.EOF, "", 7, 0⟩] (by with_unfolding_all decide)

/-- Claim C9 (confirmed): `maxRolls: 0` is falsy, so the limit check is
skipped entirely and `roll` behaves exactly as with no `maxRolls`; for a
positive `maxRolls` the call fails with `TooManyDiceError` carrying the
computed count exactly when `countRolls(ast) > maxRolls`. -/
theorem c9_maxRolls_zero_disables_limit :
    (∀ (σ : Type) (step : σ → Nat → ℚ × σ) (s0 : σ) (expression : String),
      roll expression step s0 (some 0) = roll expression step s0 none) ∧
    (∀ (σ : Type) (step : σ → Nat → ℚ × σ) (s0 : σ) (expression : String)
      (m : ℚ) (tokens : List Token) (ast : ASTNode),
      lex expression = .ok tokens → parse tokens = .ok ast → 0 < m →
      (roll expression step s0 (some m) =
          .error (.tooManyDice (countRolls ast)) ↔
        (countRolls ast : ℚ) > m)) := by
  constructor
  · intro σ step s0 expression
    unfold roll
    cases lex expression with
    | error e => rfl
    | ok tokens =>
      cases parse tokens with
      | error msg => rfl
      | ok ast => simp
  · intro σ step s0 expression m tokens ast hlex hparse hm
    have hm0 : m ≠ 0 := ne_of_gt hm
    unfold roll
    rw [hlex]
    dsimp only
    rw [hparse]
    dsimp only
    rw [if_pos hm0]
    by_cases hgt : (countRolls ast : ℚ) > m
    · simp [hgt]
    · simp [hgt]

/-- Witness for C9: `"3d6"` statically counts 3 rolls, so `maxRolls = 2`
rejects it with `TooManyDiceError(3)`. -/
theorem c9_maxRolls_zero_disables_limit_witness :
    roll "3d6" seqStep ([1, 1, 1] : List ℚ) (some 2) =
        .error (.tooManyDice (countRolls (.dice 3 6))) ↔
      ((countRolls (.dice 3 6) : ℚ) > 2) :=
  c9_maxRolls_zero_disables_limit.2 _ seqStep [1, 1, 1] "3d6" 2
    [⟨.NUMBER, "3", 0, 3⟩, ⟨.DICE, "d", 1, 0⟩, ⟨.NUMBER, "6", 2, 6⟩,
      ⟨.EOF, "", 3, 0⟩]
    (.dice 3 6) (by with_unfolding_all decide) (by with_unfolding_all decide)
    (by norm_num)

/-- Claim C10 (confirmed): with a keep-count evaluating to 0 the two
modifiers are asymmetric: `KEEP_LOWEST` sums the empty slice and gives 0,
while `KEEP_HIGHEST` computes `slice(-0) = slice(0)` and sums ALL rolls;
concretely `"2d6kh0"` on rolls `[3, 4]` gives 7 and `"2d6kl0"` gives 0. -/
theorem c10_keep_count_zero_asymmetry :
    (∀ (σ : Type) (step : σ → Nat → ℚ × σ) (numDice numSides : Nat)
      (right : ASTNode) (s : σ),
      (evaluate step right (evalDice step numDice numSides s).2).1.result = 0 →
      (evaluate step (.diceBinaryOp numDice numSides .KEEP_HIGHEST right)
          s).1.result = sum (rollsFrom step numSides numDice s).1 ∧
      (evaluate step (.diceBinaryOp numDice numSides .KEEP_LOWEST right)
          s).1.result = 0) ∧
    roll "2d6kh0" seqStep [3, 4] = .ok ⟨7, none, "[3 + 4]kh0"⟩ ∧
    roll "2d6kl0" seqStep [3, 4] = .ok ⟨0, none, "[3 + 4]kl0"⟩ := by
  refine ⟨?_, by with_unfolding_all decide, by with_unfolding_all decide⟩
  intro σ step numDice numSides right s h
  simp only [evalDice] at h
  simp only [evaluate, evalDice, Option.getD_some, h, neg_zero,
    jsSliceStart_zero, jsSliceZeroEnd_zero, sum_jsSort]
  exact ⟨trivial, rfl⟩

/-- Witness for C10: the asymmetry at the concrete node `2d6kh0`/`2d6kl0`
with the sequence source `[3, 4]`. -/
theorem c10_keep_count_zero_asymmetry_witness :
    (evaluate seqStep (.diceBinaryOp 2 6 .KEEP_HIGHEST (.number 0))
        ([3, 4] : List ℚ)).1.result = sum (rollsFrom seqStep 6 2 [3, 4]).1 ∧
    (evaluate seqStep (.diceBinaryOp 2 6 .KEEP_LOWEST (.number 0))
        ([3, 4] : List ℚ)).1.result = 0 :=
  c10_keep_count_zero_asymmetry.1 _ seqStep 2 6 (.number 0) [3, 4]
    (by with_unfolding_all decide)

/-- A wrapper around a randomness source that counts its invocations: the
`Nat` component of the state is incremented on every call. -/
def countingStep {σ : Type} (step : σ → Nat → ℚ × σ) :
    Nat × σ → Nat → ℚ × (Nat × σ) := fun s mx =>
  let r := step s.2 mx
  (r.1, (s.1 + 1, r.2))

/-- Number of `NUMBER` nodes in an AST; used to state the corrected form of
claim C1 (each `NUMBER` leaf adds 1 to `countRolls` but triggers no call of
the randomness source). -/
def numberNodes : ASTNode → Nat
  | .number _ => 1
  | .dice _ _ => 0
  | .binaryOp l _ r => numberNodes l + numberNodes r
  | .diceBinaryOp _ _ _ r => numberNodes r
  | .grouping e => numberNodes e

/-- Rolling `m` dice invokes the randomness source exactly `m` times. -/
theorem rollsFrom_counting {σ : Type} (step : σ → Nat → ℚ × σ)
    (numSides : Nat) :
    ∀ (m n : Nat) (s : σ),
    (rollsFrom (countingStep step) numSides m (n, s)).2.1 = n + m := by
  intro m
  induction m with
  | zero => intro n s; rfl
  | succ m ih =>
    intro n s
    simp only [rollsFrom, countingStep]
    rw [ih]
    omega

/-- Evaluating any AST with an instrumented randomness source: the number
of invocations performed is `countRolls ast - numberNodes ast`. -/
theorem evaluate_counting {σ : Type} (step : σ → Nat → ℚ × σ) :
    ∀ (ast : ASTNode) (n : Nat) (s : σ),
    (evaluate (countingStep step) ast (n, s)).2.1 + numberNodes ast
      = n + countRolls ast := by
  intro ast
  induction ast with
  | number v => intro n s; simp [evaluate, numberNodes, countRolls]
  | dice numDice numSides =>
    intro n s
    simp [evaluate, evalDice, numberNodes, countRolls,
      rollsFrom_counting step numSides numDice n s]
  | binaryOp l op r ihl ihr =>
    intro n s
    simp only [evaluate, numberNodes, countRolls]
    have hl := ihl n s
    have hr := ihr (evaluate (countingStep step) l (n, s)).2.1
      (evaluate (countingStep step) l (n, s)).2.2
    rw [Prod.mk.eta] at hr
    omega
  | diceBinaryOp numDice numSides op r ihr =>
    intro n s
    have hl := rollsFrom_counting step numSides numDice n s
    have hr := ihr (rollsFrom (countingStep step) numSides numDice (n, s)).2.1
      (rollsFrom (countingStep step) numSides numDice (n, s)).2.2
    rw [Prod.mk.eta] at hr
    cases op <;>
      simp only [evaluate, evalDice, numberNodes, countRolls] <;> omega
  | grouping e ihe =>
    intro n s
    simp only [evaluate, numberNodes, countRolls]
    exact ihe n s

/-- Claim C1 (corrected): `countRolls` does NOT equal the number of
invocations of the randomness source: a `NUMBER` node adds 1 to
`countRolls` yet the evaluator performs no call for it.  The corrected
relationship, for every AST and every source: `countRolls ast` equals the
number of `random()` invocations during evaluation plus the number of
`NUMBER` nodes (so the two agree exactly on `NUMBER`-free ASTs, with a
`DICE` node contributing `numDice` calls). -/
theorem c1_countRolls_counts_calls_plus_numbers :
    ∀ (σ : Type) (step : σ → Nat → ℚ × σ) (ast : ASTNode) (s : σ),
    countRolls ast =
      (evaluate (countingStep step) ast (0, s)).2.1 + numberNodes ast := by
  intro σ step ast s
  have h := evaluate_counting step ast 0 s
  omega

/-- Counterexample for C1 as stated: the parser maps `"1"` to a `NUMBER`
AST whose `countRolls` is 1, yet evaluating it performs 0 invocations of
the randomness source. -/
theorem c1_countRolls_counts_calls_plus_numbers_cex :
    lex "1" = .ok [⟨.NUMBER, "1", 0, 1⟩, ⟨.EOF, "", 1, 0⟩] ∧
    parse [⟨.NUMBER, "1", 0, 1⟩, ⟨.EOF, "", 1, 0⟩] = .ok (.number 1) ∧
    countRolls (.number 1) = 1 ∧
    (evaluate (countingStep seqStep) (.number 1) (0, ([] : List ℚ))).2.1 = 0 ∧
    (1 : Nat) ≠ 0 := by
  refine ⟨?_, ?_, ?_, ?_, ?_⟩ <;> with_unfolding_all decide

/-- The last `k` elements of `l` — the claim's reading of "keep the highest
`k` of the sorted rolls" — which is all of `l` when `k` exceeds the length. -/
def lastSlice (k : Nat) (l : List ℚ) : List ℚ := l.drop (l.length - k)

/-- For a keep-count `k ≥ 1`, `slice(-k)` is the last-`k`-elements slice. -/
theorem jsSliceStart_neg_natCast (l : List ℚ) (k : Nat) (hk : 1 ≤ k) :
    jsSliceStart l (-(k : ℚ)) = lastSlice k l := by
  simp only [jsSliceStart, lastSlice, jsTrunc_neg_natCast k hk]
  have h : -(k : Int) < 0 := by omega
  rw [if_pos h]
  congr 1
  omega

/-- For a keep-count `k`, `slice(0, k)` is the first-`k`-elements slice. -/
theorem jsSliceZeroEnd_natCast (l : List ℚ) (k : Nat) :
    jsSliceZeroEnd l (k : ℚ) = l.take k := by
  simp only [jsSliceZeroEnd, jsTrunc_natCast]
  have h : ¬((k : Int) < 0) := by omega
  rw [if_neg h]
  rw [Int.toNat_natCast]
  rcases le_total k l.length with h2 | h2
  · rw [min_eq_left h2]
  · rw [min_eq_right h2, List.take_length, List.take_of_length_le h2]

/-- Claim C2 (corrected): evaluating `DICE_BINARY_OP` sorts the rolls
ascending and sums a slice: for `KEEP_HIGHEST` the last `right.result`
elements — but only for keep-counts `≥ 1` (a keep-count of 0 sums ALL
rolls, since `slice(-0)` is `slice(0)`; see C10) — and for `KEEP_LOWEST`
the first `right.result` elements; a count beyond the number of rolls
keeps every roll, with no error.  Concretely `"3d6kh1"` on `[1, 2, 5]`
gives 5 and `"3d6kl2"` gives 3. -/
theorem c2_keep_modifier_slices :
    (∀ (σ : Type) (step : σ → Nat → ℚ × σ) (numDice numSides : Nat)
      (right : ASTNode) (s : σ) (k : Nat),
      (evaluate step right (evalDice step numDice numSides s).2).1.result
          = (k : ℚ) →
      (1 ≤ k →
        (evaluate step (.diceBinaryOp numDice numSides .KEEP_HIGHEST right)
            s).1.result
          = sum (lastSlice k (jsSort (rollsFrom step numSides numDice s).1))) ∧
      (evaluate step (.diceBinaryOp numDice numSides .KEEP_LOWEST right)
          s).1.result
        = sum ((jsSort (rollsFrom step numSides numDice s).1).take k)) ∧
    (∀ l : List ℚ, List.Sorted (· ≤ ·) (jsSort l) ∧ (jsSort l).Perm l) ∧
    roll "3d6kh1" seqStep [1, 2, 5] = .ok ⟨5, none, "[1 + 2 + 5]kh1"⟩ ∧
    roll "3d6kl2" seqStep [1, 2, 5] = .ok ⟨3, none, "[1 + 2 + 5]kl2"⟩ := by
  refine ⟨?_, fun l => jsSort_sorted_perm l, by with_unfolding_all decide,
    by with_unfolding_all decide⟩
  intro σ step numDice numSides right s k h
  simp only [evalDice] at h
  constructor
  · intro hk
    simp only [evaluate, evalDice, Option.getD_some, h,
      jsSliceStart_neg_natCast _ k hk]
  · simp only [evaluate, evalDice, Option.getD_some, h,
      jsSliceZeroEnd_natCast]

/-- Counterexample for C2 as stated: with keep-count 0, `KEEP_HIGHEST`
does NOT return the sum of the last 0 elements (which is 0); it returns
the sum of all rolls, 7 for rolls `[3, 4]`. -/
theorem c2_keep_modifier_slices_cex :
    roll "2d6kh0" seqStep [3, 4] = .ok ⟨7, none, "[3 + 4]kh0"⟩ ∧
    sum (lastSlice 0 (jsSort [3, 4])) = 0 ∧ (7 : ℚ) ≠ 0 := by
  refine ⟨?_, ?_, ?_⟩ <;> with_unfolding_all decide

/-- Witness for C2: the slice characterisation applied at `3d6kh1` and
`3d6kl2` with the sequence source `[1, 2, 5]`. -/
theorem c2_keep_modifier_slices_witness :
    (evaluate seqStep (.diceBinaryOp 3 6 .KEEP_HIGHEST (.number 1))
        ([1, 2, 5] : List ℚ)).1.result
      = sum (lastSlice 1 (jsSort (rollsFrom seqStep 6 3 [1, 2, 5]).1)) ∧
    (evaluate seqStep (.diceBinaryOp 3 6 .KEEP_LOWEST (.number 2))
        ([1, 2, 5] : List ℚ)).1.result
      = sum ((jsSort (rollsFrom seqStep 6 3 [1, 2, 5]).1).take 2) :=
  ⟨(c2_keep_modifier_slices.1 _ seqStep 3 6 (.number 1) [1, 2, 5] 1
      (by with_unfolding_all decide)).1 (by decide),
    (c2_keep_modifier_slices.1 _ seqStep 3 6 (.number 2) [1, 2, 5] 2
      (by with_unfolding_all decide)).2⟩

/-- A decimal digit never matches the whitespace class `/\\s/`. -/
theorem digit_not_space {c : Char} (h : isDigit c = true) :
    isSpaceChar c = false := by
  simp only [isDigit, decide_eq_true_eq] at h
  simp only [isSpaceChar, decide_eq_false_iff_not]
  intro hor
  rcases hor with rfl|rfl|rfl|rfl|rfl|rfl|rfl|rfl|⟨h1, h2⟩|rfl|rfl|rfl|rfl|rfl|rfl <;>
    first
      | exact absurd h (by decide)
      | exact absurd (le_trans h1 h.2) (by decide)

/-- `takeWhile` of a list all of whose elements satisfy the predicate. -/
theorem takeWhile_all {α : Type _} {p : α → Bool} :
    ∀ l : List α, (∀ c ∈ l, p c = true) → l.takeWhile p = l
  | [], _ => rfl
  | c :: l, h => by
    rw [List.takeWhile_cons_of_pos (h c (by simp)),
      takeWhile_all l (fun c hc => h c (by simp [hc]))]

/-- `dropWhile` of a list all of whose elements satisfy the predicate. -/
theorem dropWhile_all {α : Type _} {p : α → Bool} :
    ∀ l : List α, (∀ c ∈ l, p c = true) → l.dropWhile p = []
  | [], _ => rfl
  | c :: l, h => by
    rw [List.dropWhile_cons_of_pos (h c (by simp)),
      dropWhile_all l (fun c hc => h c (by simp [hc]))]

theorem length_dropWhile_le {α : Type _} (p : α → Bool) (l : List α) :
    (l.dropWhile p).length ≤ l.length :=
  List.Sublist.length_le (List.dropWhile_sublist p)

/-- The scan loop on no remaining characters, for any fuel. -/
theorem lexGo_nil (expr : String) :
    ∀ (fuel offset : Nat), lexGo expr fuel [] offset = ([], [], offset) := by
  intro fuel offset
  cases fuel <;> rfl

/-- The scan loop on a pure digit run: one `NUMBER` token, no errors. -/
theorem lexGo_digits_nil (expr : String) (ds : List Char) (hne : ds ≠ [])
    (hds : ∀ c ∈ ds, isDigit c = true) :
    ∀ fuel, 1 ≤ fuel → ∀ offset,
    lexGo expr fuel ds offset =
      ([⟨.NUMBER, String.mk ds, offset, natOfDigits ds⟩], [],
        offset + ds.length) := by
  obtain ⟨d, ds2, rfl⟩ := List.exists_cons_of_ne_nil hne
  intro fuel hf offset
  obtain ⟨f, rfl⟩ : ∃ f, fuel = f + 1 := ⟨fuel - 1, by omega⟩
  have hd : isDigit d = true := hds d (by simp)
  have hs : isSpaceChar d = false := digit_not_space hd
  simp only [lexGo, lexCons, hs, hd, Bool.false_eq_true, if_false, if_true,
    takeWhile_all _ hds, dropWhile_all _ hds, lexGo_nil]

/-- Lexing `"d<digits>"`: a `DICE` token, a `NUMBER` token, `EOF`. -/
theorem lex_dN (ds : List Char) (hne : ds ≠ [])
    (hds : ∀ c ∈ ds, isDigit c = true) :
    lex (String.mk ('d' :: ds)) =
      .ok [⟨.DICE, "d", 0, 0⟩, ⟨.NUMBER, String.mk ds, 1, natOfDigits ds⟩,
        ⟨.EOF, "", 1 + ds.length, 0⟩] := by
  have key : lexGo (String.mk ('d' :: ds))
      ((String.mk ('d' :: ds)).data.length + 1) (String.mk ('d' :: ds)).data 0
      = ([⟨.DICE, "d", 0, 0⟩, ⟨.NUMBER, String.mk ds, 1, natOfDigits ds⟩],
          [], 1 + ds.length) := by
    rw [show lexGo (String.mk ('d' :: ds))
        ((String.mk ('d' :: ds)).data.length + 1) (String.mk ('d' :: ds)).data 0
        = (⟨.DICE, "d", 0, 0⟩ ::
            (lexGo (String.mk ('d' :: ds)) (ds.length + 1) ds 1).1,
          (lexGo (String.mk ('d' :: ds)) (ds.length + 1) ds 1).2) from rfl,
      lexGo_digits_nil _ ds hne hds (ds.length + 1) (by omega) 1]
  simp only [lex, key]
  rfl

/-- Lexing `"1d<digits>"`: `NUMBER 1`, `DICE`, `NUMBER`, `EOF`. -/
theorem lex_1dN (ds : List Char) (hne : ds ≠ [])
    (hds : ∀ c ∈ ds, isDigit c = true) :
    lex (String.mk ('1' :: 'd' :: ds)) =
      .ok [⟨.NUMBER, "1", 0, 1⟩, ⟨.DICE, "d", 1, 0⟩,
        ⟨.NUMBER, String.mk ds, 2, natOfDigits ds⟩,
        ⟨.EOF, "", 2 + ds.length, 0⟩] := by
  have key : lexGo (String.mk ('1' :: 'd' :: ds))
      ((String.mk ('1' :: 'd' :: ds)).data.length + 1)
      (String.mk ('1' :: 'd' :: ds)).data 0
      = ([⟨.NUMBER, "1", 0, 1⟩, ⟨.DICE, "d", 1, 0⟩,
          ⟨.NUMBER, String.mk ds, 2, natOfDigits ds⟩], [], 2 + ds.length) := by
    rw [show lexGo (String.mk ('1' :: 'd' :: ds))
        ((String.mk ('1' :: 'd' :: ds)).data.length + 1)
        (String.mk ('1' :: 'd' :: ds)).data 0
        = (⟨.NUMBER, "1", 0, 1⟩ :: ⟨.DICE, "d", 1, 0⟩ ::
            (lexGo (String.mk ('1' :: 'd' :: ds)) (ds.length + 1) ds 2).1,
          (lexGo (String.mk ('1' :: 'd' :: ds)) (ds.length + 1) ds 2).2) from rfl,
      lexGo_digits_nil _ ds hne hds (ds.length + 1) (by omega) 2]
  simp only [lex, key]
  rfl

/-- Parsing `DICE NUMBER EOF` (any lexemes/offsets): one die, sides from
the `NUMBER` literal. -/
theorem parse_dN (lx1 lx2 lx3 : String) (o1 o2 o3 n : Nat) :
    parse [⟨.DICE, lx1, o1, 0⟩, ⟨.NUMBER, lx2, o2, n⟩, ⟨.EOF, lx3, o3, 0⟩] =
      .ok (.dice 1 n) := rfl

/-- Parsing `NUMBER DICE NUMBER EOF` (any lexemes/offsets): dice count and
sides from the two `NUMBER` literals. -/
theorem parse_mdN (lx0 lx1 lx2 lx3 : String) (o0 o1 o2 o3 m n : Nat) :
    parse [⟨.NUMBER, lx0, o0, m⟩, ⟨.DICE, lx1, o1, 0⟩, ⟨.NUMBER, lx2, o2, n⟩,
      ⟨.EOF, lx3, o3, 0⟩] = .ok (.dice m n) := rfl

/-- Claim C8 (confirmed): an omitted dice quantity defaults to 1: for any
sides literal and any randomness source, `roll "dN"` and `roll "1dN"`
yield identical `Result` values; concretely `"d8"` and `"1d8"` with a
source yielding 5 both give result 5. -/
theorem c8_omitted_quantity_defaults_to_one :
    (∀ (ds : List Char), ds ≠ [] → (∀ c ∈ ds, isDigit c = true) →
      ∀ (σ : Type) (step : σ → Nat → ℚ × σ) (s0 : σ),
      roll (String.mk ('d' :: ds)) step s0 =
        roll (String.mk ('1' :: 'd' :: ds)) step s0) ∧
    roll "d8" seqStep [5] = .ok ⟨5, some [5], "[5]"⟩ ∧
    roll "1d8" seqStep [5] = .ok ⟨5, some [5], "[5]"⟩ := by
  refine ⟨?_, by with_unfolding_all decide, by with_unfolding_all decide⟩
  intro ds hne hds σ step s0
  unfold roll
  rw [lex_dN ds hne hds, lex_1dN ds hne hds]
  dsimp only
  rw [parse_dN, parse_mdN]

/-- Witness for C8: `"d8"` and `"1d8"` under the sequence source `[5]`. -/
theorem c8_omitted_quantity_defaults_to_one_witness :
    roll (String.mk ['d', '8']) seqStep ([5] : List ℚ) =
      roll (String.mk ['1', 'd', '8']) seqStep [5] :=
  c8_omitted_quantity_defaults_to_one.1 ['8'] (by decide) (by decide)
    _ seqStep [5]

/-- The characters the lexer recognizes: whitespace, digits, `d`, the six
operator/parenthesis characters, and `k`/`h`/`l`. -/
def recognizedChar (c : Char) : Bool :=
  isSpaceChar c || isDigit c || c = 'd' || c = '+' || c = '-' || c = '*' ||
  c = '/' || c = '(' || c = ')' || c = 'k' || c = 'h' || c = 'l'

/-- Case analysis on one iteration of the scan loop: it skips whitespace,
or produces a `NUMBER` token from the maximal digit run, or produces a
single-character token, or produces a two-character keep token (offset one
past the `k`, lexeme `"kh"` for both), or collects a bad-`k` error (offset
one past the `k`, the following character not consumed), or collects an
unknown-character error (at the character's offset). -/
theorem lexCons_cases (expr : String) (c : Char) (cs : List Char)
    (offset : Nat)
    (go : List Char → Nat → List Token × List DiceNotationError × Nat) :
    (isSpaceChar c = true ∧
      lexCons expr c cs offset go = go cs (offset + 1)) ∨
    (isDigit c = true ∧
      lexCons expr c cs offset go =
        (⟨.NUMBER, String.mk ((c :: cs).takeWhile isDigit), offset,
            natOfDigits ((c :: cs).takeWhile isDigit)⟩ ::
              (go ((c :: cs).dropWhile isDigit)
                (offset + ((c :: cs).takeWhile isDigit).length)).1,
          (go ((c :: cs).dropWhile isDigit)
            (offset + ((c :: cs).takeWhile isDigit).length)).2)) ∨
    (∃ ty : TokenType, recognizedChar c = true ∧ c ≠ 'k' ∧
      lexCons expr c cs offset go =
        (⟨ty, c.toString, offset, 0⟩ :: (go cs (offset + 1)).1,
          (go cs (offset + 1)).2)) ∨
    (∃ (ty : TokenType) (c2 : Char) (cs2 : List Char), c = 'k' ∧
      cs = c2 :: cs2 ∧ (c2 = 'h' ∨ c2 = 'l') ∧
      (ty = .KEEP_HIGHEST ∨ ty = .KEEP_LOWEST) ∧
      lexCons expr c cs offset go =
        (⟨ty, "kh", offset + 1, 0⟩ :: (go cs2 (offset + 2)).1,
          (go cs2 (offset + 2)).2)) ∨
    (c = 'k' ∧ (∀ c2 ∈ cs.head?, c2 ≠ 'h' ∧ c2 ≠ 'l') ∧
      lexCons expr c cs offset go =
        ((go cs (offset + 1)).1,
          ⟨"Unexpected k", expr, offset + 1⟩ :: (go cs (offset + 1)).2.1,
          (go cs (offset + 1)).2.2)) ∨
    (recognizedChar c = false ∧
      lexCons expr c cs offset go =
        ((go cs (offset + 1)).1,
          ⟨"Unexpected \x27" ++ c.toString ++ "\x27!", expr, offset⟩ ::
            (go cs (offset + 1)).2.1,
          (go cs (offset + 1)).2.2)) := by
  by_cases h1 : isSpaceChar c = true
  · exact Or.inl ⟨h1, by simp only [lexCons]; rw [if_pos h1]⟩
  by_cases h2 : isDigit c = true
  · refine Or.inr (Or.inl ⟨h2, ?_⟩)
    simp only [lexCons]
    rw [if_neg h1, if_pos h2]
  by_cases h3 : c = 'd'
  · subst h3
    exact Or.inr (Or.inr (Or.inl ⟨.DICE, by decide, by decide, rfl⟩))
  by_cases h4 : c = '+'
  · subst h4
    exact Or.inr (Or.inr (Or.inl ⟨.PLUS, by decide, by decide, rfl⟩))
  by_cases h5 : c = '-'
  · subst h5
    exact Or.inr (Or.inr (Or.inl ⟨.MINUS, by decide, by decide, rfl⟩))
  by_cases h6 : c = '*'
  · subst h6
    exact Or.inr (Or.inr (Or.inl ⟨.STAR, by decide, by decide, rfl⟩))
  by_cases h7 : c = '/'
  · subst h7
    exact Or.inr (Or.inr (Or.inl ⟨.SLASH, by decide, by decide, rfl⟩))
  by_cases h8 : c = '('
  · subst h8
    exact Or.inr (Or.inr (Or.inl ⟨.PAREN_OPEN, by decide, by decide, rfl⟩))
  by_cases h9 : c = ')'
  · subst h9
    exact Or.inr (Or.inr (Or.inl ⟨.PAREN_CLOSE, by decide, by decide, rfl⟩))
  by_cases h10 : c = 'k'
  · subst h10
    match cs with
    | [] =>
      refine Or.inr (Or.inr (Or.inr (Or.inr (Or.inl ⟨rfl, by simp, rfl⟩))))
    | c2 :: cs2 =>
      by_cases hc2 : c2 = 'h'
      · subst hc2
        exact Or.inr (Or.inr (Or.inr (Or.inl
          ⟨.KEEP_HIGHEST, 'h', cs2, rfl, rfl, Or.inl rfl, Or.inl rfl, rfl⟩)))
      by_cases hc2l : c2 = 'l'
      · subst hc2l
        exact Or.inr (Or.inr (Or.inr (Or.inl
          ⟨.KEEP_LOWEST, 'l', cs2, rfl, rfl, Or.inr rfl, Or.inr rfl, rfl⟩)))
      refine Or.inr (Or.inr (Or.inr (Or.inr (Or.inl ⟨rfl, ?_, ?_⟩))))
      · intro x hx
        simp only [List.head?_cons, Option.mem_def, Option.some.injEq] at hx
        subst hx
        exact ⟨hc2, hc2l⟩
      · simp only [lexCons]
        rw [if_neg (by decide), if_neg (by decide), if_neg (by decide),
          if_neg (by decide), if_neg (by decide), if_neg (by decide),
          if_neg (by decide), if_neg (by decide), if_neg (by decide)]
        rw [if_pos trivial]
        split
        next heq => injection heq with ha hb; exact absurd ha hc2
        next heq => injection heq with ha hb; exact absurd ha hc2l
        next => rfl
  by_cases h11 : c = 'h'
  · subst h11
    exact Or.inr (Or.inr (Or.inl ⟨.KEEP_HIGHEST, by decide, by decide, rfl⟩))
  by_cases h12 : c = 'l'
  · subst h12
    exact Or.inr (Or.inr (Or.inl ⟨.KEEP_LOWEST, by decide, by decide, rfl⟩))
  refine Or.inr (Or.inr (Or.inr (Or.inr (Or.inr ⟨?_, ?_⟩))))
  · simp only [recognizedChar, Bool.or_eq_false_iff, decide_eq_false_iff_not]
    simp only [Bool.not_eq_true] at h1 h2
    exact ⟨⟨⟨⟨⟨⟨⟨⟨⟨⟨⟨h1, h2⟩, h3⟩, h4⟩, h5⟩, h6⟩, h7⟩, h8⟩, h9⟩, h10⟩, h11⟩, h12⟩
  · simp only [lexCons]
    rw [if_neg h1, if_neg h2, if_neg h3, if_neg h4, if_neg h5, if_neg h6,
      if_neg h7, if_neg h8, if_neg h9, if_neg h10, if_neg h11, if_neg h12]

/-- The final offset returned by the scan loop is the start offset plus
the number of characters scanned. -/
theorem lexGo_final (expr : String) :
    ∀ fuel cs offset, cs.length < fuel →
    (lexGo expr fuel cs offset).2.2 = offset + cs.length := by
  intro fuel
  induction fuel with
  | zero => intro cs offset h; omega
  | succ f ih =>
    intro cs offset h
    match cs with
    | [] => rfl
    | c :: cs2 =>
      have hlen : cs2.length < f := by
        simp only [List.length_cons] at h
        omega
      show (lexCons expr c cs2 offset (lexGo expr f)).2.2 = _
      rcases lexCons_cases expr c cs2 offset (lexGo expr f) with
        ⟨hc, heq⟩ | ⟨hc, heq⟩ | ⟨ty, hc, hk, heq⟩ |
        ⟨ty, c2, cs3, hc, hcs, hc2, hty, heq⟩ | ⟨hc, hhd, heq⟩ | ⟨hc, heq⟩ <;>
        rw [heq] <;> try dsimp only
      · rw [ih cs2 (offset + 1) hlen]
        simp only [List.length_cons]
        omega
      · have hdw : ((c :: cs2).dropWhile isDigit).length < f := by
          rw [List.dropWhile_cons_of_pos hc]
          have := length_dropWhile_le isDigit cs2
          omega
        rw [ih _ _ hdw]
        have hsum : ((c :: cs2).takeWhile isDigit).length +
            ((c :: cs2).dropWhile isDigit).length = (c :: cs2).length := by
          rw [← List.length_append, List.takeWhile_append_dropWhile]
        simp only [List.length_cons] at hsum ⊢
        omega
      · rw [ih cs2 (offset + 1) hlen]
        simp only [List.length_cons]
        omega
      · subst hcs
        have hlen3 : cs3.length < f := by
          simp only [List.length_cons] at h
          omega
        rw [ih cs3 (offset + 2) hlen3]
        simp only [List.length_cons]
        omega
      · rw [ih cs2 (offset + 1) hlen]
        simp only [List.length_cons]
        omega
      · rw [ih cs2 (offset + 1) hlen]
        simp only [List.length_cons]
        omega

/-- Positional invariant of a token produced by scanning `cs` from offset
`offset`: the token lies within the scanned range and either its lexeme is
exactly the source text starting at its `offset`, or it is a keep token
from the `k` branch — lexeme `"kh"`, `offset` one past the `k`. -/
def tokenInv (cs : List Char) (offset : Nat) (t : Token) : Prop :=
  offset ≤ t.offset ∧ t.offset ≤ offset + cs.length ∧
  ((cs.drop (t.offset - offset)).take t.lexeme.data.length = t.lexeme.data ∨
    (t.lexeme = "kh" ∧ offset + 1 ≤ t.offset ∧
      cs.get? (t.offset - offset - 1) = some 'k' ∧
      (t.type = .KEEP_HIGHEST ∨ t.type = .KEEP_LOWEST)))

/-- A token invariant established on a suffix transfers to the whole list. -/
theorem tokenInv_shift (cs1 : List Char) {cs2 : List Char} {offset : Nat} {t : Token}
    (h : tokenInv cs2 (offset + cs1.length) t) : tokenInv (cs1 ++ cs2) offset t := by
  obtain ⟨h1, h2, h3⟩ := h
  refine ⟨by omega, by simp only [List.length_append]; omega, ?_⟩
  rcases h3 with h3 | ⟨hl, ho, hk, hty⟩
  · left
    have hidx : t.offset - offset = cs1.length + (t.offset - (offset + cs1.length)) := by
      omega
    rw [hidx, ← List.drop_drop, List.drop_left]
    exact h3
  · right
    refine ⟨hl, by omega, ?_, hty⟩
    have hidx : t.offset - offset - 1
        = cs1.length + (t.offset - (offset + cs1.length) - 1) := by omega
    rw [hidx, List.get?_append_right (by omega)]
    have hidx2 : cs1.length + (t.offset - (offset + cs1.length) - 1) - cs1.length
        = t.offset - (offset + cs1.length) - 1 := by omega
    rw [hidx2]
    exact hk

/-- The data of a one-character string. -/
theorem charToString_data (c : Char) : c.toString.data = [c] := rfl

/-- Every token the scan loop produces satisfies `tokenInv`, and the token
offsets are non-decreasing. -/
theorem lexGo_tokens (expr : String) :
    ∀ fuel cs offset, cs.length < fuel →
    (∀ t ∈ (lexGo expr fuel cs offset).1, tokenInv cs offset t) ∧
    List.Chain' (· ≤ ·) (((lexGo expr fuel cs offset).1).map Token.offset) := by
  intro fuel
  induction fuel with
  | zero => intro cs offset h; omega
  | succ f ih =>
    intro cs offset h
    match cs with
    | [] => exact ⟨by intro t ht; simp [lexGo] at ht, by simp [lexGo]⟩
    | c :: cs2 =>
      have hlen : cs2.length < f := by
        simp only [List.length_cons] at h
        omega
      show (∀ t ∈ (lexCons expr c cs2 offset (lexGo expr f)).1, _) ∧
        List.Chain' _ ((lexCons expr c cs2 offset (lexGo expr f)).1.map _)
      rcases lexCons_cases expr c cs2 offset (lexGo expr f) with
        ⟨hc, heq⟩ | ⟨hc, heq⟩ | ⟨ty, hc, hck, heq⟩ |
        ⟨ty, c2, cs3, hc, hcs, hc2, hty, heq⟩ | ⟨hc, hhd, heq⟩ | ⟨hc, heq⟩ <;>
        rw [heq]
      -- whitespace: recurse only
      · obtain ⟨ih1, ih2⟩ := ih cs2 (offset + 1) hlen
        exact ⟨fun t ht => tokenInv_shift [c] (ih1 t ht), ih2⟩
      -- digit run: NUMBER token, then recurse after the run
      · set run := (c :: cs2).takeWhile isDigit with hrun
        set rest := (c :: cs2).dropWhile isDigit with hrest
        have hsplit : run ++ rest = c :: cs2 :=
          List.takeWhile_append_dropWhile isDigit (c :: cs2)
        have hrlen : rest.length < f := by
          have h1 : rest.length ≤ cs2.length := by
            rw [hrest, List.dropWhile_cons_of_pos hc]
            exact length_dropWhile_le isDigit cs2
          omega
        obtain ⟨ih1, ih2⟩ := ih rest (offset + run.length) hrlen
        constructor
        · intro t ht
          simp only [List.mem_cons] at ht
          rcases ht with rfl | ht
          · refine ⟨le_refl _, by simp, Or.inl ?_⟩
            simp only [Nat.sub_self, List.drop_zero]
            exact (List.prefix_iff_eq_take.mp (List.takeWhile_prefix isDigit)).symm
          · have := tokenInv_shift run (ih1 t ht)
            rwa [hsplit] at this
        · simp only [List.map_cons]
          rw [List.chain'_cons']
          refine ⟨?_, ih2⟩
          intro y hy
          simp only [List.head?_map, Option.mem_def, Option.map_eq_some'] at hy
          obtain ⟨t, htH, rfl⟩ := hy
          exact le_trans (by omega) (ih1 t (List.mem_of_mem_head? htH)).1
      -- single-character token
      · obtain ⟨ih1, ih2⟩ := ih cs2 (offset + 1) hlen
        constructor
        · intro t ht
          simp only [List.mem_cons] at ht
          rcases ht with rfl | ht
          · refine ⟨le_refl _, by simp, Or.inl ?_⟩
            simp only [Nat.sub_self, List.drop_zero, charToString_data]
            rfl
          · exact tokenInv_shift [c] (ih1 t ht)
        · simp only [List.map_cons]
          rw [List.chain'_cons']
          refine ⟨?_, ih2⟩
          intro y hy
          simp only [List.head?_map, Option.mem_def, Option.map_eq_some'] at hy
          obtain ⟨t, htH, rfl⟩ := hy
          exact le_trans (by omega) (ih1 t (List.mem_of_mem_head? htH)).1
      -- two-character keep token
      · subst hcs
        have hlen3 : cs3.length < f := by
          simp only [List.length_cons] at h
          omega
        obtain ⟨ih1, ih2⟩ := ih cs3 (offset + 2) hlen3
        constructor
        · intro t ht
          simp only [List.mem_cons] at ht
          rcases ht with rfl | ht
          · refine ⟨by dsimp only; omega, ?_, Or.inr ?_⟩
            · dsimp only
              simp only [List.length_cons]
              omega
            refine ⟨rfl, le_refl _, ?_, hty⟩
            have hidx : offset + 1 - offset - 1 = 0 := by omega
            rw [hidx, List.get?_cons_zero, hc]
          · exact tokenInv_shift [c, c2] (ih1 t ht)
        · simp only [List.map_cons]
          rw [List.chain'_cons']
          refine ⟨?_, ih2⟩
          intro y hy
          simp only [List.head?_map, Option.mem_def, Option.map_eq_some'] at hy
          obtain ⟨t, htH, rfl⟩ := hy
          exact le_trans (by omega) (ih1 t (List.mem_of_mem_head? htH)).1
      -- bad k: error only, token list is the recursion's
      · obtain ⟨ih1, ih2⟩ := ih cs2 (offset + 1) hlen
        exact ⟨fun t ht => tokenInv_shift [c] (ih1 t ht), ih2⟩
      -- unknown character: error only
      · obtain ⟨ih1, ih2⟩ := ih cs2 (offset + 1) hlen
        exact ⟨fun t ht => tokenInv_shift [c] (ih1 t ht), ih2⟩

/-- Positional invariant of a collected lexical error: it carries the full
source string, lies in the scanned range, and points either at an
unrecognized character or just past a `k` not followed by `h`/`l`. -/
def errInv (expr : String) (cs : List Char) (offset : Nat)
    (e : DiceNotationError) : Prop :=
  e.expression = expr ∧ offset ≤ e.offset ∧ e.offset ≤ offset + cs.length ∧
  ((∃ c, cs.get? (e.offset - offset) = some c ∧ recognizedChar c = false) ∨
    (offset + 1 ≤ e.offset ∧ cs.get? (e.offset - offset - 1) = some 'k' ∧
      ∀ c, cs.get? (e.offset - offset) = some c → c ≠ 'h' ∧ c ≠ 'l'))

/-- An error invariant established on a suffix transfers to the whole list. -/
theorem errInv_shift {expr : String} (cs1 : List Char) {cs2 : List Char} {offset : Nat}
    {e : DiceNotationError} (h : errInv expr cs2 (offset + cs1.length) e) :
    errInv expr (cs1 ++ cs2) offset e := by
  obtain ⟨h0, h1, h2, h3⟩ := h
  have hget : ∀ r : Nat, (cs1 ++ cs2).get? (cs1.length + r) = cs2.get? r := by
    intro r
    rw [List.get?_append_right (by omega)]
    congr 1
    omega
  refine ⟨h0, by omega, by simp only [List.length_append]; omega, ?_⟩
  have hidx : e.offset - offset = cs1.length + (e.offset - (offset + cs1.length)) := by
    omega
  rcases h3 with ⟨c, hc, hrec⟩ | ⟨ho, hk, hfol⟩
  · exact Or.inl ⟨c, by rw [hidx, hget]; exact hc, hrec⟩
  · refine Or.inr ⟨by omega, ?_, ?_⟩
    · have hidx2 : e.offset - offset - 1
          = cs1.length + (e.offset - (offset + cs1.length) - 1) := by omega
      rw [hidx2, hget]
      exact hk
    · intro c hc
      rw [hidx, hget] at hc
      exact hfol c hc

/-- Every error the scan loop collects satisfies `errInv`, and the error
offsets are collected in non-decreasing (scan) order. -/
theorem lexGo_errors (expr : String) :
    ∀ fuel cs offset, cs.length < fuel →
    (∀ e ∈ (lexGo expr fuel cs offset).2.1, errInv expr cs offset e) ∧
    List.Chain' (· ≤ ·)
      (((lexGo expr fuel cs offset).2.1).map DiceNotationError.offset) := by
  intro fuel
  induction fuel with
  | zero => intro cs offset h; omega
  | succ f ih =>
    intro cs offset h
    match cs with
    | [] => exact ⟨by intro e he; simp [lexGo] at he, by simp [lexGo]⟩
    | c :: cs2 =>
      have hlen : cs2.length < f := by
        simp only [List.length_cons] at h
        omega
      show (∀ e ∈ (lexCons expr c cs2 offset (lexGo expr f)).2.1, _) ∧
        List.Chain' _ ((lexCons expr c cs2 offset (lexGo expr f)).2.1.map _)
      rcases lexCons_cases expr c cs2 offset (lexGo expr f) with
        ⟨hc, heq⟩ | ⟨hc, heq⟩ | ⟨ty, hc, hck, heq⟩ |
        ⟨ty, c2, cs3, hc, hcs, hc2, hty, heq⟩ | ⟨hc, hhd, heq⟩ | ⟨hc, heq⟩ <;>
        rw [heq]
      -- whitespace
      · obtain ⟨ih1, ih2⟩ := ih cs2 (offset + 1) hlen
        exact ⟨fun e he => errInv_shift [c] (ih1 e he), ih2⟩
      -- digit run
      · have hsplit : (c :: cs2).takeWhile isDigit ++ (c :: cs2).dropWhile isDigit
            = c :: cs2 := List.takeWhile_append_dropWhile isDigit (c :: cs2)
        have hrlen : ((c :: cs2).dropWhile isDigit).length < f := by
          have h1 : ((c :: cs2).dropWhile isDigit).length ≤ cs2.length := by
            rw [List.dropWhile_cons_of_pos hc]
            exact length_dropWhile_le isDigit cs2
          omega
        obtain ⟨ih1, ih2⟩ := ih ((c :: cs2).dropWhile isDigit)
          (offset + ((c :: cs2).takeWhile isDigit).length) hrlen
        refine ⟨fun e he => ?_, ih2⟩
        have := errInv_shift ((c :: cs2).takeWhile isDigit) (ih1 e he)
        rwa [hsplit] at this
      -- single-character token
      · obtain ⟨ih1, ih2⟩ := ih cs2 (offset + 1) hlen
        exact ⟨fun e he => errInv_shift [c] (ih1 e he), ih2⟩
      -- two-character keep token
      · subst hcs
        have hlen3 : cs3.length < f := by
          simp only [List.length_cons] at h
          omega
        obtain ⟨ih1, ih2⟩ := ih cs3 (offset + 2) hlen3
        exact ⟨fun e he => errInv_shift [c, c2] (ih1 e he), ih2⟩
      -- bad k: the collected error points one past the k
      · obtain ⟨ih1, ih2⟩ := ih cs2 (offset + 1) hlen
        constructor
        · intro e he
          simp only [List.mem_cons] at he
          rcases he with rfl | he
          · refine ⟨rfl, by dsimp only; omega, ?_, Or.inr ⟨le_refl _, ?_, ?_⟩⟩
            · dsimp only
              simp only [List.length_cons]
              omega
            · have hidx : offset + 1 - offset - 1 = 0 := by omega
              rw [hidx, List.get?_cons_zero, hc]
            · intro x hx
              apply hhd
              have hidx : offset + 1 - offset = 1 := by omega
              rw [hidx, List.get?_cons_succ] at hx
              cases cs2 with
              | nil => simp at hx
              | cons y ys =>
                simp only [List.get?_cons_zero, Option.some.injEq] at hx
                subst hx
                rfl
          · exact errInv_shift [c] (ih1 e he)
        · simp only [List.map_cons]
          rw [List.chain'_cons']
          refine ⟨?_, ih2⟩
          intro y hy
          simp only [List.head?_map, Option.mem_def, Option.map_eq_some'] at hy
          obtain ⟨e, heH, rfl⟩ := hy
          exact le_trans (by omega) (ih1 e (List.mem_of_mem_head? heH)).2.1
      -- unknown character
      · obtain ⟨ih1, ih2⟩ := ih cs2 (offset + 1) hlen
        constructor
        · intro e he
          simp only [List.mem_cons] at he
          rcases he with rfl | he
          · refine ⟨rfl, le_refl _, ?_, Or.inl ⟨c, ?_, hc⟩⟩
            · dsimp only
              simp only [List.length_cons]
              omega
            · have hidx : offset - offset = 0 := by omega
              rw [hidx, List.get?_cons_zero]
          · exact errInv_shift [c] (ih1 e he)
        · simp only [List.map_cons]
          rw [List.chain'_cons']
          refine ⟨?_, ih2⟩
          intro y hy
          simp only [List.head?_map, Option.mem_def, Option.map_eq_some'] at hy
          obtain ⟨e, heH, rfl⟩ := hy
          exact le_trans (by omega) (ih1 e (List.mem_of_mem_head? heH)).2.1

/-- The remaining characters contain a lexical fault: an unrecognized
character, or a `k` not immediately followed by `h` or `l`. -/
def badIn (cs : List Char) : Prop :=
  (∃ j c, cs.get? j = some c ∧ recognizedChar c = false) ∨
  (∃ j, cs.get? j = some 'k' ∧
    ∀ c, cs.get? (j + 1) = some c → c ≠ 'h' ∧ c ≠ 'l')

/-- Dropping a recognized non-`k` head character preserves `badIn`. -/
theorem badIn_cons {x : Char} {cs : List Char}
    (hrec : recognizedChar x = true) (hxk : x ≠ 'k') :
    badIn (x :: cs) → badIn cs := by
  rintro (⟨j, c, hj, hc⟩ | ⟨j, hj, hfol⟩)
  · match j with
    | 0 =>
      rw [List.get?_cons_zero, Option.some.injEq] at hj
      subst hj
      rw [hrec] at hc
      cases hc
    | j + 1 =>
      rw [List.get?_cons_succ] at hj
      exact Or.inl ⟨j, c, hj, hc⟩
  · match j with
    | 0 =>
      rw [List.get?_cons_zero, Option.some.injEq] at hj
      exact absurd hj hxk
    | j + 1 =>
      rw [List.get?_cons_succ] at hj
      refine Or.inr ⟨j, hj, fun c hcg => hfol c ?_⟩
      rw [List.get?_cons_succ]
      exact hcg

/-- Dropping a prefix of recognized non-`k` characters preserves `badIn`. -/
theorem badIn_append (cs1 : List Char) {cs2 : List Char}
    (hall : ∀ x ∈ cs1, recognizedChar x = true ∧ x ≠ 'k') :
    badIn (cs1 ++ cs2) → badIn cs2 := by
  induction cs1 with
  | nil => exact fun h => h
  | cons x cs1 ih =>
    intro h
    have hx := hall x (by simp)
    exact ih (fun y hy => hall y (by simp [hy]))
      (badIn_cons hx.1 hx.2 h)

/-- Dropping a well-formed two-character keep sequence preserves `badIn`. -/
theorem badIn_keep {c2 : Char} {cs3 : List Char} (hc2 : c2 = 'h' ∨ c2 = 'l') :
    badIn ('k' :: c2 :: cs3) → badIn cs3 := by
  rintro (⟨j, c, hj, hrecc⟩ | ⟨j, hj, hfol⟩)
  · match j with
    | 0 =>
      rw [List.get?_cons_zero, Option.some.injEq] at hj
      subst hj
      rw [show recognizedChar 'k' = true from by decide] at hrecc
      cases hrecc
    | 1 =>
      rw [List.get?_cons_succ, List.get?_cons_zero, Option.some.injEq] at hj
      subst hj
      rcases hc2 with rfl | rfl <;> simp [recognizedChar] at hrecc
    | j + 2 =>
      rw [List.get?_cons_succ, List.get?_cons_succ] at hj
      exact Or.inl ⟨j, c, hj, hrecc⟩
  · match j with
    | 0 =>
      have := hfol c2 (by rw [List.get?_cons_succ, List.get?_cons_zero])
      rcases hc2 with rfl | rfl
      · exact absurd rfl this.1
      · exact absurd rfl this.2
    | 1 =>
      rw [List.get?_cons_succ, List.get?_cons_zero, Option.some.injEq] at hj
      rcases hc2 with rfl | rfl <;> cases hj
    | j + 2 =>
      rw [List.get?_cons_succ, List.get?_cons_succ] at hj
      refine Or.inr ⟨j, hj, fun c hcg => hfol c ?_⟩
      rw [List.get?_cons_succ, List.get?_cons_succ]
      exact hcg

/-- If the remaining characters contain a lexical fault, the scan collects
at least one error. -/
theorem lexGo_err_nonempty (expr : String) :
    ∀ fuel cs offset, cs.length < fuel → badIn cs →
    (lexGo expr fuel cs offset).2.1 ≠ [] := by
  intro fuel
  induction fuel with
  | zero => intro cs offset h; omega
  | succ f ih =>
    intro cs offset h hbad
    match cs with
    | [] =>
      rcases hbad with ⟨j, c, hj, _⟩ | ⟨j, hj, _⟩ <;> simp at hj
    | c :: cs2 =>
      have hlen : cs2.length < f := by
        simp only [List.length_cons] at h
        omega
      show (lexCons expr c cs2 offset (lexGo expr f)).2.1 ≠ []
      rcases lexCons_cases expr c cs2 offset (lexGo expr f) with
        ⟨hc, heq⟩ | ⟨hc, heq⟩ | ⟨ty, hc, hck, heq⟩ |
        ⟨ty, c2, cs3, hc, hcs, hc2, hty, heq⟩ | ⟨hc, hhd, heq⟩ | ⟨hc, heq⟩ <;>
        rw [heq]
      -- whitespace
      · refine ih cs2 (offset + 1) hlen (badIn_cons ?_ ?_ hbad)
        · simp [recognizedChar, hc]
        · intro hk
          subst hk
          exact absurd hc (by decide)
      -- digit run
      · have hsplit : (c :: cs2).takeWhile isDigit ++ (c :: cs2).dropWhile isDigit
            = c :: cs2 := List.takeWhile_append_dropWhile isDigit (c :: cs2)
        have hrlen : ((c :: cs2).dropWhile isDigit).length < f := by
          have h1 : ((c :: cs2).dropWhile isDigit).length ≤ cs2.length := by
            rw [List.dropWhile_cons_of_pos hc]
            exact length_dropWhile_le isDigit cs2
          omega
        have hbad2 : badIn ((c :: cs2).dropWhile isDigit) := by
          refine badIn_append ((c :: cs2).takeWhile isDigit) ?_
            (by rwa [hsplit])
          intro x hx
          have hdx : isDigit x = true := List.mem_takeWhile_imp hx
          constructor
          · simp [recognizedChar, hdx]
          · intro hk
            subst hk
            exact absurd hdx (by decide)
        have := ih _ (offset + ((c :: cs2).takeWhile isDigit).length) hrlen hbad2
        intro hcontra
        apply this
        have : ((⟨.NUMBER, String.mk ((c :: cs2).takeWhile isDigit), offset,
            natOfDigits ((c :: cs2).takeWhile isDigit)⟩ : Token) ::
              (lexGo expr f ((c :: cs2).dropWhile isDigit)
                (offset + ((c :: cs2).takeWhile isDigit).length)).1,
            (lexGo expr f ((c :: cs2).dropWhile isDigit)
              (offset + ((c :: cs2).takeWhile isDigit).length)).2).2.1
            = (lexGo expr f ((c :: cs2).dropWhile isDigit)
                (offset + ((c :: cs2).takeWhile isDigit).length)).2.1 := rfl
        rw [← this]
        exact hcontra
      -- single-character token
      · exact ih cs2 (offset + 1) hlen (badIn_cons hc hck hbad)
      -- two-character keep token
      · subst hcs
        subst hc
        have hlen3 : cs3.length < f := by
          simp only [List.length_cons] at h
          omega
        exact ih cs3 (offset + 2) hlen3 (badIn_keep hc2 hbad)
      -- bad k: an error is collected
      · simp
      -- unknown character: an error is collected
      · simp

/-- The token's text: the claim's reading that `offset` is the index where
the token's lexeme starts in the source. -/
def tokenTextAt (s : String) (t : Token) : Prop :=
  (s.data.drop t.offset).take t.lexeme.data.length = t.lexeme.data

instance (s : String) (t : Token) : Decidable (tokenTextAt s t) :=
  inferInstanceAs (Decidable
    ((s.data.drop t.offset).take t.lexeme.data.length = t.lexeme.data))

/-- Claim C6 (corrected): on every successful `lex`, token offsets are
non-decreasing and the final token is `EOF` with an empty lexeme; every
token's offset is the index where its text starts EXCEPT the keep tokens
produced by the `k` branch (lexeme `"kh"`), whose offset is one past the
`k` (the index of the `h`/`l`). -/
theorem c6_token_offsets_and_eof :
    ∀ (s : String) (toks : List Token), lex s = .ok toks →
      List.Chain' (· ≤ ·) (toks.map Token.offset) ∧
      toks ≠ [] ∧
      (∃ t, toks.getLast? = some t ∧ t.type = .EOF ∧ t.lexeme = "") ∧
      (∀ t ∈ toks, tokenTextAt s t ∨
        (t.lexeme = "kh" ∧ 1 ≤ t.offset ∧
          s.data.get? (t.offset - 1) = some 'k' ∧
          (t.type = .KEEP_HIGHEST ∨ t.type = .KEEP_LOWEST))) := by
  intro s toks hlex
  have hfuel : s.data.length < s.data.length + 1 := by omega
  obtain ⟨hinv, hchain⟩ := lexGo_tokens s (s.data.length + 1) s.data 0 hfuel
  have hfin := lexGo_final s (s.data.length + 1) s.data 0 hfuel
  simp only [lex] at hlex
  rcases hE : (lexGo s (s.data.length + 1) s.data 0).2.1 with _ | ⟨e0, es⟩
  · rw [hE] at hlex
    simp only [Except.ok.injEq] at hlex
    subst hlex
    refine ⟨?_, by simp, ?_, ?_⟩
    · rw [List.map_append]
      rw [List.chain'_append]
      refine ⟨hchain, by simp, ?_⟩
      intro x hx y hy
      have hxm : x ∈ ((lexGo s (s.data.length + 1) s.data 0).1.map Token.offset) :=
        List.mem_of_mem_getLast? hx
      obtain ⟨t, htm, rfl⟩ := List.mem_map.mp hxm
      simp only [List.map_cons, List.map_nil, List.head?_cons, Option.mem_def,
        Option.some.injEq] at hy
      subst hy
      have := (hinv t htm).2.1
      omega
    · refine ⟨_, List.getLast?_concat _, rfl, rfl⟩
    · intro t ht
      rcases List.mem_append.mp ht with htm | hteof
      · obtain ⟨h1, h2, h3⟩ := hinv t htm
        rcases h3 with h3 | ⟨hl, ho, hk, hty⟩
        · left
          rw [tokenTextAt]
          rw [Nat.sub_zero] at h3
          exact h3
        · right
          exact ⟨hl, by omega, by rw [show t.offset - 1 = t.offset - 0 - 1 by omega]; exact hk, hty⟩
      · left
        simp only [List.mem_singleton] at hteof
        subst hteof
        rw [tokenTextAt]
        rfl
  · rw [hE] at hlex
    cases hlex

/-- Counterexample for C6 as stated: lexing `"kh"` produces a token whose
lexeme `"kh"` starts at index 0, but whose `offset` field is 1; the text at
offset 1 is not the lexeme. -/
theorem c6_token_offsets_and_eof_cex :
    lex "kh" = .ok [⟨.KEEP_HIGHEST, "kh", 1, 0⟩, ⟨.EOF, "", 2, 0⟩] ∧
    ¬ tokenTextAt "kh" ⟨.KEEP_HIGHEST, "kh", 1, 0⟩ ∧
    tokenTextAt "kh" ⟨.KEEP_HIGHEST, "kh", 0, 0⟩ := by
  refine ⟨by with_unfolding_all decide, by decide, by decide⟩

/-- Witness for C6: the tokens of `"kh"` satisfy the amended invariant. -/
theorem c6_token_offsets_and_eof_witness :
    List.Chain' (· ≤ ·)
      (([⟨.KEEP_HIGHEST, "kh", 1, 0⟩, ⟨.EOF, "", 2, 0⟩] : List Token).map
        Token.offset) ∧
    ([⟨.KEEP_HIGHEST, "kh", 1, 0⟩, ⟨.EOF, "", 2, 0⟩] : List Token) ≠ [] ∧
    (∃ t, ([⟨.KEEP_HIGHEST, "kh", 1, 0⟩, ⟨.EOF, "", 2, 0⟩] :
        List Token).getLast? = some t ∧ t.type = .EOF ∧ t.lexeme = "") ∧
    (∀ t ∈ ([⟨.KEEP_HIGHEST, "kh", 1, 0⟩, ⟨.EOF, "", 2, 0⟩] : List Token),
      tokenTextAt "kh" t ∨
        (t.lexeme = "kh" ∧ 1 ≤ t.offset ∧
          "kh".data.get? (t.offset - 1) = some 'k' ∧
          (t.type = .KEEP_HIGHEST ∨ t.type = .KEEP_LOWEST))) :=
  c6_token_offsets_and_eof "kh" [⟨.KEEP_HIGHEST, "kh", 1, 0⟩, ⟨.EOF, "", 2, 0⟩]
    (by with_unfolding_all decide)

/-- Claim C4 (corrected): whenever the input has a lexical fault, `lex`
throws; the thrown error is the first collected in left-to-right scan
order (its offset is minimal among all collected errors), it carries the
full source string, and its offset points at the offending character for
an unrecognized character but at the position immediately AFTER the `k`
for a `k` not followed by `h`/`l`.  For `"1 @ 2"` the offset points at the
`@`. -/
theorem c4_first_error_offsets :
    (∀ (s : String) (e : DiceNotationError), lex s = .error e →
      e.expression = s ∧
      e ∈ (lexGo s (s.data.length + 1) s.data 0).2.1 ∧
      (∀ e2 ∈ (lexGo s (s.data.length + 1) s.data 0).2.1,
        e.offset ≤ e2.offset) ∧
      ((∃ c, s.data.get? e.offset = some c ∧ recognizedChar c = false) ∨
        (1 ≤ e.offset ∧ s.data.get? (e.offset - 1) = some 'k' ∧
          ∀ c, s.data.get? e.offset = some c → c ≠ 'h' ∧ c ≠ 'l'))) ∧
    (∀ s : String, badIn s.data → ∃ e, lex s = .error e) ∧
    lex "1 @ 2" = .error ⟨"Unexpected \x27@\x27!", "1 @ 2", 2⟩ := by
  refine ⟨?_, ?_, by with_unfolding_all decide⟩
  · intro s e hlex
    have hfuel : s.data.length < s.data.length + 1 := by omega
    obtain ⟨hinv, hchain⟩ := lexGo_errors s (s.data.length + 1) s.data 0 hfuel
    simp only [lex] at hlex
    rcases hE : (lexGo s (s.data.length + 1) s.data 0).2.1 with _ | ⟨e0, es⟩
    · rw [hE] at hlex
      cases hlex
    · rw [hE] at hlex
      simp only [Except.error.injEq] at hlex
      subst hlex
      rw [hE] at hinv hchain
      have he0 := hinv e0 (by simp)
      refine ⟨he0.1, by simp [hE], ?_, ?_⟩
      · rw [List.map_cons, List.chain'_iff_pairwise, List.pairwise_cons] at hchain
        intro e2 he2
        rcases List.mem_cons.mp he2 with rfl | he2
        · exact le_refl _
        · exact hchain.1 e2.offset (List.mem_map_of_mem _ he2)
      · obtain ⟨_, _, _, h4⟩ := he0
        rcases h4 with ⟨c, hc, hrec⟩ | ⟨h1, h2, h3⟩
        · rw [Nat.sub_zero] at hc
          exact Or.inl ⟨c, hc, hrec⟩
        · refine Or.inr ⟨by omega, ?_, ?_⟩
          · rw [show e0.offset - 1 = e0.offset - 0 - 1 by omega]
            exact h2
          · intro c hc
            exact h3 c (by rw [Nat.sub_zero]; exact hc)
  · intro s hbad
    have hfuel : s.data.length < s.data.length + 1 := by omega
    have hne := lexGo_err_nonempty s (s.data.length + 1) s.data 0 hfuel hbad
    rcases hE : (lexGo s (s.data.length + 1) s.data 0).2.1 with _ | ⟨e0, es⟩
    · exact absurd hE hne
    · refine ⟨e0, ?_⟩
      simp only [lex, hE]

/-- Counterexample for C4 as stated: `"1k2"` throws the bad-`k` error with
offset 2, which points at the recognized character `2` rather than at the
offending `k` at index 1. -/
theorem c4_first_error_offsets_cex :
    lex "1k2" = .error ⟨"Unexpected k", "1k2", 2⟩ ∧
    "1k2".data.get? 1 = some 'k' ∧
    "1k2".data.get? 2 = some '2' ∧
    recognizedChar '2' = true ∧
    (2 : Nat) ≠ 1 := by
  refine ⟨by with_unfolding_all decide, ?_, ?_, ?_, ?_⟩ <;> decide

/-- Witness for C4: the characterisation applied at `"1 @ 2"`, whose error
points at the unrecognized `@` at offset 2. -/
theorem c4_first_error_offsets_witness :
    (⟨"Unexpected \x27@\x27!", "1 @ 2", 2⟩ :
        DiceNotationError).expression = "1 @ 2" ∧
    (⟨"Unexpected \x27@\x27!", "1 @ 2", 2⟩ : DiceNotationError) ∈
      (lexGo "1 @ 2" ("1 @ 2".data.length + 1) "1 @ 2".data 0).2.1 ∧
    (∀ e2 ∈ (lexGo "1 @ 2" ("1 @ 2".data.length + 1) "1 @ 2".data 0).2.1,
      (⟨"Unexpected \x27@\x27!", "1 @ 2", 2⟩ :
        DiceNotationError).offset ≤ e2.offset) ∧
    ((∃ c, "1 @ 2".data.get? (⟨"Unexpected \x27@\x27!", "1 @ 2", 2⟩ :
        DiceNotationError).offset = some c ∧ recognizedChar c = false) ∨
      (1 ≤ (⟨"Unexpected \x27@\x27!", "1 @ 2", 2⟩ :
          DiceNotationError).offset ∧
        "1 @ 2".data.get? ((⟨"Unexpected \x27@\x27!", "1 @ 2", 2⟩ :
          DiceNotationError).offset - 1) = some 'k' ∧
        ∀ c, "1 @ 2".data.get? (⟨"Unexpected \x27@\x27!", "1 @ 2", 2⟩ :
          DiceNotationError).offset = some c → c ≠ 'h' ∧ c ≠ 'l')) :=
  c4_first_error_offsets.1 "1 @ 2" ⟨"Unexpected \x27@\x27!", "1 @ 2", 2⟩
    (by with_unfolding_all decide)

/-! The language of claim C3: arithmetic expressions over integer
literals, `+ - * /` and parentheses.  The mutually inductive types below
mirror the parser's grammar exactly (EBNF: `term = factor ((PLUS|MINUS)
factor)*`, `factor = primary ((STAR|SLASH) primary)*`, `primary = NUMBER |
PAREN_OPEN term PAREN_CLOSE`), with the repetition encoded as tail lists
whose `Bool` picks the first operator of the pair (`+`/`*` for `true`). -/

mutual

inductive PrimE : Type where
  | num (ds : List Char) : PrimE
  | paren (t : TermE) : PrimE

inductive FactorE : Type where
  | mk (head : PrimE) (tail : FTail) : FactorE

inductive FTail : Type where
  | nil : FTail
  | cons (isMul : Bool) (p : PrimE) (tl : FTail) : FTail

inductive TermE : Type where
  | mk (head : FactorE) (tail : TTail) : TermE

inductive TTail : Type where
  | nil : TTail
  | cons (isAdd : Bool) (f : FactorE) (tl : TTail) : TTail

end

mutual

/-- Well-formedness: every numeric literal is a nonempty digit string. -/
def wfP : PrimE → Prop
  | .num ds => ds ≠ [] ∧ ∀ c ∈ ds, isDigit c = true
  | .paren t => wfT t

def wfF : FactorE → Prop
  | .mk h tl => wfP h ∧ wfFT tl

def wfFT : FTail → Prop
  | .nil => True
  | .cons _ p tl => wfP p ∧ wfFT tl

def wfT : TermE → Prop
  | .mk h tl => wfF h ∧ wfTT tl

def wfTT : TTail → Prop
  | .nil => True
  | .cons _ f tl => wfF f ∧ wfTT tl

end

mutual

/-- The source text of the expression (no whitespace). -/
def renderP : PrimE → List Char
  | .num ds => ds
  | .paren t => '(' :: renderT t ++ [')']

def renderF : FactorE → List Char
  | .mk h tl => renderP h ++ renderFT tl

def renderFT : FTail → List Char
  | .nil => []
  | .cons b p tl => (if b then '*' else '/') :: renderP p ++ renderFT tl

def renderT : TermE → List Char
  | .mk h tl => renderF h ++ renderTT tl

def renderTT : TTail → List Char
  | .nil => []
  | .cons b f tl => (if b then '+' else '-') :: renderF f ++ renderTT tl

end

mutual

/-- The tokens the lexer produces for the expression, starting at `off`. -/
def toksP : PrimE → Nat → List Token
  | .num ds, off => [⟨.NUMBER, String.mk ds, off, natOfDigits ds⟩]
  | .paren t, off =>
    ⟨.PAREN_OPEN, "(", off, 0⟩ :: toksT t (off + 1) ++
      [⟨.PAREN_CLOSE, ")", off + 1 + (renderT t).length, 0⟩]

def toksF : FactorE → Nat → List Token
  | .mk h tl, off => toksP h off ++ toksFT tl (off + (renderP h).length)

def toksFT : FTail → Nat → List Token
  | .nil, _ => []
  | .cons b p tl, off =>
    (if b then (⟨.STAR, "*", off, 0⟩ : Token) else ⟨.SLASH, "/", off, 0⟩) ::
      toksP p (off + 1) ++ toksFT tl (off + 1 + (renderP p).length)

def toksT : TermE → Nat → List Token
  | .mk h tl, off => toksF h off ++ toksTT tl (off + (renderF h).length)

def toksTT : TTail → Nat → List Token
  | .nil, _ => []
  | .cons b f tl, off =>
    (if b then (⟨.PLUS, "+", off, 0⟩ : Token) else ⟨.MINUS, "-", off, 0⟩) ::
      toksF f (off + 1) ++ toksTT tl (off + 1 + (renderF f).length)

end

mutual

/-- The AST the parser builds for the expression (left-associated chains,
explicit `grouping` for parentheses). -/
def astP : PrimE → ASTNode
  | .num ds => .number (natOfDigits ds)
  | .paren t => .grouping (astT t)

def astF : FactorE → ASTNode
  | .mk h tl => astFT (astP h) tl

def astFT : ASTNode → FTail → ASTNode
  | acc, .nil => acc
  | acc, .cons b p tl =>
    astFT (.binaryOp acc (if b then .STAR else .SLASH) (astP p)) tl

def astT : TermE → ASTNode
  | .mk h tl => astTT (astF h) tl

def astTT : ASTNode → TTail → ASTNode
  | acc, .nil => acc
  | acc, .cons b f tl =>
    astTT (.binaryOp acc (if b then .PLUS else .MINUS) (astF f)) tl

end

mutual

/-- The arithmetically correct value of the expression: exact rational
arithmetic, `*`/`/` binding tighter than `+`/`-`, both levels
left-associative.  This is the specification-side denotation against
which the pipeline is compared. -/
def aevalP : PrimE → ℚ
  | .num ds => (natOfDigits ds : ℚ)
  | .paren t => aevalT t

def aevalF : FactorE → ℚ
  | .mk h tl => aevalFT (aevalP h) tl

def aevalFT : ℚ → FTail → ℚ
  | acc, .nil => acc
  | acc, .cons b p tl => aevalFT (if b then acc * aevalP p else acc / aevalP p) tl

def aevalT : TermE → ℚ
  | .mk h tl => aevalTT (aevalF h) tl

def aevalTT : ℚ → TTail → ℚ
  | acc, .nil => acc
  | acc, .cons b f tl => aevalTT (if b then acc + aevalF f else acc - aevalF f) tl

end

mutual

/-- No division in the expression has a zero divisor (under `aeval`).
JS produces `Infinity` on division by zero while the rational model
yields `0`, so claims about arithmetic correctness are restricted to
expressions satisfying this predicate. -/
def noDivP : PrimE → Prop
  | .num _ => True
  | .paren t => noDivT t

def noDivF : FactorE → Prop
  | .mk h tl => noDivP h ∧ noDivFT tl

def noDivFT : FTail → Prop
  | .nil => True
  | .cons b p tl => noDivP p ∧ (b = false → aevalP p ≠ 0) ∧ noDivFT tl

def noDivT : TermE → Prop
  | .mk h tl => noDivF h ∧ noDivTT tl

def noDivTT : TTail → Prop
  | .nil => True
  | .cons _ f tl => noDivF f ∧ noDivTT tl

end

mutual

/-- Number of tokens of the expression. -/
def ntP : PrimE → Nat
  | .num _ => 1
  | .paren t => ntT t + 2

def ntF : FactorE → Nat
  | .mk h tl => ntP h + ntFT tl

def ntFT : FTail → Nat
  | .nil => 0
  | .cons _ p tl => 1 + ntP p + ntFT tl

def ntT : TermE → Nat
  | .mk h tl => ntF h + ntTT tl

def ntTT : TTail → Nat
  | .nil => 0
  | .cons _ f tl => 1 + ntF f + ntTT tl

end

mutual

/-- Evaluating a `primary` arithmetic AST: the result is its denotation
and the randomness state is untouched. -/
theorem evalArithP (p : PrimE) :
    ∀ (σ : Type) (step : σ → Nat → ℚ × σ) (s : σ),
    (evaluate step (astP p) s).1.result = aevalP p ∧
    (evaluate step (astP p) s).2 = s := by
  cases p with
  | num ds => intro σ step s; exact ⟨rfl, rfl⟩
  | paren t =>
    intro σ step s
    have h := evalArithT t σ step s
    refine ⟨?_, ?_⟩ <;> simp only [astP, aevalP, evaluate, h.1, h.2]

/-- Evaluating a left-associated factor chain hung on an accumulator. -/
theorem evalArithFT (tl : FTail) :
    ∀ (acc : ASTNode) (accV : ℚ),
    (∀ (σ : Type) (step : σ → Nat → ℚ × σ) (s : σ),
      (evaluate step acc s).1.result = accV ∧ (evaluate step acc s).2 = s) →
    ∀ (σ : Type) (step : σ → Nat → ℚ × σ) (s : σ),
    (evaluate step (astFT acc tl) s).1.result = aevalFT accV tl ∧
    (evaluate step (astFT acc tl) s).2 = s := by
  cases tl with
  | nil => intro acc accV hacc σ step s; exact hacc σ step s
  | cons b p tl =>
    intro acc accV hacc σ step s
    refine evalArithFT tl _ (if b then accV * aevalP p else accV / aevalP p)
      ?_ σ step s
    intro τ stp t
    have hl := hacc τ stp t
    have hp := evalArithP p τ stp t
    cases b <;> refine ⟨?_, ?_⟩ <;>
      simp only [evaluate, Bool.false_eq_true, if_false, if_true, hl.1, hl.2,
        hp.1, hp.2]

/-- Evaluating a `factor` arithmetic AST. -/
theorem evalArithF (f : FactorE) :
    ∀ (σ : Type) (step : σ → Nat → ℚ × σ) (s : σ),
    (evaluate step (astF f) s).1.result = aevalF f ∧
    (evaluate step (astF f) s).2 = s := by
  cases f with
  | mk h tl => exact evalArithFT tl (astP h) (aevalP h) (evalArithP h)

/-- Evaluating a left-associated term chain hung on an accumulator. -/
theorem evalArithTT (tl : TTail) :
    ∀ (acc : ASTNode) (accV : ℚ),
    (∀ (σ : Type) (step : σ → Nat → ℚ × σ) (s : σ),
      (evaluate step acc s).1.result = accV ∧ (evaluate step acc s).2 = s) →
    ∀ (σ : Type) (step : σ → Nat → ℚ × σ) (s : σ),
    (evaluate step (astTT acc tl) s).1.result = aevalTT accV tl ∧
    (evaluate step (astTT acc tl) s).2 = s := by
  cases tl with
  | nil => intro acc accV hacc σ step s; exact hacc σ step s
  | cons b f tl =>
    intro acc accV hacc σ step s
    refine evalArithTT tl _ (if b then accV + aevalF f else accV - aevalF f)
      ?_ σ step s
    intro τ stp t
    have hl := hacc τ stp t
    have hf := evalArithF f τ stp t
    cases b <;> refine ⟨?_, ?_⟩ <;>
      simp only [evaluate, Bool.false_eq_true, if_false, if_true, hl.1, hl.2,
        hf.1, hf.2]

/-- Evaluating a `term` arithmetic AST. -/
theorem evalArithT (t : TermE) :
    ∀ (σ : Type) (step : σ → Nat → ℚ × σ) (s : σ),
    (evaluate step (astT t) s).1.result = aevalT t ∧
    (evaluate step (astT t) s).2 = s := by
  cases t with
  | mk h tl => exact evalArithTT tl (astF h) (aevalF h) (evalArithF h)

end

/-- The next token (if any) is not `DICE`, so `primary`'s number/dice
lookahead does not fire. -/
def headIsNotDice (rest : List Token) : Prop :=
  match rest with
  | t :: _ => t.type ≠ .DICE
  | [] => True

/-- A nonempty continuation whose head stops the factor loop. -/
def stopFactorTok (rest : List Token) : Prop :=
  match rest with
  | t :: _ => t.type ≠ .STAR ∧ t.type ≠ .SLASH ∧ t.type ≠ .DICE
  | [] => False

/-- A nonempty continuation whose head stops the term loop too. -/
def stopTermTok (rest : List Token) : Prop :=
  match rest with
  | t :: _ => t.type ≠ .PLUS ∧ t.type ≠ .MINUS ∧ t.type ≠ .STAR ∧
      t.type ≠ .SLASH ∧ t.type ≠ .DICE
  | [] => False

theorem stopTerm_stopFactor {rest : List Token} (h : stopTermTok rest) :
    stopFactorTok rest := by
  match rest with
  | t :: ts => exact ⟨h.2.2.1, h.2.2.2.1, h.2.2.2.2⟩
  | [] => exact h

theorem stopFactor_notDice {rest : List Token} (h : stopFactorTok rest) :
    headIsNotDice rest := by
  match rest with
  | t :: ts => exact h.2.2
  | [] => trivial

theorem nextIsDice_eq_false {rest : List Token} (h : headIsNotDice rest) :
    nextIsDice rest = false := by
  match rest with
  | t :: ts =>
    simp only [nextIsDice, decide_eq_false_iff_not]
    exact h
  | [] => rfl

/-- `primary` on a `NUMBER` token not followed by `DICE`. -/
theorem primaryF_num (f : Nat) (lx : String) (off n : Nat)
    (rest : List Token) (h : headIsNotDice rest) :
    primaryF (f + 1) (⟨.NUMBER, lx, off, n⟩ :: rest) = .ok (.number n, rest) := by
  simp only [primaryF]
  simp [nextIsDice_eq_false h]

/-- `primary` on `(`: parse a term, then require `)`. -/
theorem primaryF_paren (f : Nat) (lx lx2 : String) (off n o2 n2 : Nat)
    (ts ts2 : List Token) (e : ASTNode)
    (h : termF f ts = .ok (e, ⟨.PAREN_CLOSE, lx2, o2, n2⟩ :: ts2)) :
    primaryF (f + 1) (⟨.PAREN_OPEN, lx, off, n⟩ :: ts) =
      .ok (.grouping e, ts2) := by
  simp only [primaryF]
  simp [h, expectTok, Except.bind, Bind.bind, Except.instMonad]

/-- The factor loop stops at a non-`STAR`/`SLASH` token. -/
theorem factorLoopF_exit (f : Nat) (acc : ASTNode) (t : Token)
    (rest : List Token) (h1 : t.type ≠ .STAR) (h2 : t.type ≠ .SLASH) :
    factorLoopF (f + 1) acc (t :: rest) = .ok (acc, t :: rest) := by
  simp only [factorLoopF]
  simp [h1, h2]

/-- One iteration of the factor loop. -/
theorem factorLoopF_step (f : Nat) (acc r : ASTNode) (t : Token)
    (rest ts2 : List Token) (ht : t.type = .STAR ∨ t.type = .SLASH)
    (hp : primaryF f rest = .ok (r, ts2)) :
    factorLoopF (f + 1) acc (t :: rest) =
      factorLoopF f
        (.binaryOp acc (if t.type = .STAR then .STAR else .SLASH) r) ts2 := by
  simp only [factorLoopF]
  rw [if_pos ht]
  simp [hp, Except.bind, Bind.bind, Except.instMonad]

/-- The term loop stops at a non-`PLUS`/`MINUS` token. -/
theorem termLoopF_exit (f : Nat) (acc : ASTNode) (t : Token)
    (rest : List Token) (h1 : t.type ≠ .MINUS) (h2 : t.type ≠ .PLUS) :
    termLoopF (f + 1) acc (t :: rest) = .ok (acc, t :: rest) := by
  simp only [termLoopF]
  simp [h1, h2]

/-- One iteration of the term loop. -/
theorem termLoopF_step (f : Nat) (acc r : ASTNode) (t : Token)
    (rest ts2 : List Token) (ht : t.type = .MINUS ∨ t.type = .PLUS)
    (hf : factorF f rest = .ok (r, ts2)) :
    termLoopF (f + 1) acc (t :: rest) =
      termLoopF f
        (.binaryOp acc (if t.type = .MINUS then .MINUS else .PLUS) r) ts2 := by
  simp only [termLoopF]
  rw [if_pos ht]
  simp [hf, Except.bind, Bind.bind, Except.instMonad]

/-- `factor` = `primary` then the factor loop. -/
theorem factorF_eq (f : Nat) (ts ts2 : List Token) (r : ASTNode)
    (hp : primaryF f ts = .ok (r, ts2)) :
    factorF (f + 1) ts = factorLoopF f r ts2 := by
  simp only [factorF]
  simp [hp, Except.bind, Bind.bind, Except.instMonad]

/-- `term` = `factor` then the term loop. -/
theorem termF_eq (f : Nat) (ts ts2 : List Token) (r : ASTNode)
    (hf : factorF f ts = .ok (r, ts2)) :
    termF (f + 1) ts = termLoopF f r ts2 := by
  simp only [termF]
  simp [hf, Except.bind, Bind.bind, Except.instMonad]

theorem headIsNotDice_toksFT (tl : FTail) (off : Nat) {rest : List Token}
    (h : stopFactorTok rest) : headIsNotDice (toksFT tl off ++ rest) := by
  cases tl with
  | nil =>
    simp only [toksFT, List.nil_append]
    exact stopFactor_notDice h
  | cons b p tl =>
    cases b <;> simp only [toksFT, List.cons_append] <;>
      exact fun h => nomatch h

theorem stopFactorTok_toksTT (tl : TTail) (off : Nat) {rest : List Token}
    (h : stopTermTok rest) : stopFactorTok (toksTT tl off ++ rest) := by
  cases tl with
  | nil =>
    simp only [toksTT, List.nil_append]
    exact stopTerm_stopFactor h
  | cons b f tl =>
    cases b <;> simp [toksTT, stopFactorTok]

mutual

/-- The parser maps the tokens of a `primary` back to its AST, leaving the
continuation untouched. -/
theorem parseP (p : PrimE) :
    ∀ (off : Nat) (rest : List Token) (fuel : Nat),
    wfP p → headIsNotDice rest → 2 * ntP p + 2 ≤ fuel →
    primaryF fuel (toksP p off ++ rest) = .ok (astP p, rest) := by
  cases p with
  | num ds =>
    intro off rest fuel hwf hnd hfuel
    obtain ⟨f, rfl⟩ : ∃ f, fuel = f + 1 := ⟨fuel - 1, by omega⟩
    simp only [toksP, List.singleton_append]
    exact primaryF_num f _ off _ rest hnd
  | paren t =>
    intro off rest fuel hwf hnd hfuel
    simp only [ntP] at hfuel
    obtain ⟨f, rfl⟩ : ∃ f, fuel = f + 1 := ⟨fuel - 1, by omega⟩
    have hstop : stopTermTok
        ((⟨.PAREN_CLOSE, ")", off + 1 + (renderT t).length, 0⟩ : Token) :: rest) := by
      simp [stopTermTok]
    have hT := parseT t (off + 1)
      (⟨.PAREN_CLOSE, ")", off + 1 + (renderT t).length, 0⟩ :: rest) f
      hwf hstop (by omega)
    simp only [toksP, List.cons_append, List.append_assoc, List.singleton_append]
    exact primaryF_paren f _ _ off 0 _ 0 _ rest (astT t) hT

/-- The factor loop consumes a factor tail, folding it onto the
accumulator left-associatively. -/
theorem parseFT (tl : FTail) :
    ∀ (off : Nat) (acc : ASTNode) (rest : List Token) (fuel : Nat),
    wfFT tl → stopFactorTok rest → 2 * ntFT tl + 2 ≤ fuel →
    factorLoopF fuel acc (toksFT tl off ++ rest) = .ok (astFT acc tl, rest) := by
  cases tl with
  | nil =>
    intro off acc rest fuel hwf hstop hfuel
    obtain ⟨f, rfl⟩ : ∃ f, fuel = f + 1 := ⟨fuel - 1, by omega⟩
    simp only [toksFT, List.nil_append]
    match rest with
    | [] => exact hstop.elim
    | t :: ts => exact factorLoopF_exit f acc t ts hstop.1 hstop.2.1
  | cons b p tl =>
    intro off acc rest fuel hwf hstop hfuel
    obtain ⟨hp, htl⟩ := hwf
    simp only [ntFT] at hfuel
    obtain ⟨f, rfl⟩ : ∃ f, fuel = f + 1 := ⟨fuel - 1, by omega⟩
    have hP := parseP p (off + 1) (toksFT tl (off + 1 + (renderP p).length) ++ rest)
      f hp (headIsNotDice_toksFT tl _ hstop) (by omega)
    have hty : (if b then (⟨.STAR, "*", off, 0⟩ : Token)
        else ⟨.SLASH, "/", off, 0⟩).type = .STAR ∨
        (if b then (⟨.STAR, "*", off, 0⟩ : Token)
          else ⟨.SLASH, "/", off, 0⟩).type = .SLASH := by
      cases b
      · exact Or.inr rfl
      · exact Or.inl rfl
    have hop : (if (if b then (⟨.STAR, "*", off, 0⟩ : Token)
        else ⟨.SLASH, "/", off, 0⟩).type = .STAR then OperatorType.STAR
          else OperatorType.SLASH) = (if b then .STAR else .SLASH) := by
      cases b <;> rfl
    have hstep := factorLoopF_step f acc (astP p)
      (if b then (⟨.STAR, "*", off, 0⟩ : Token) else ⟨.SLASH, "/", off, 0⟩)
      _ _ hty hP
    rw [hop] at hstep
    simp only [toksFT, List.cons_append, List.append_assoc]
    rw [hstep]
    exact parseFT tl (off + 1 + (renderP p).length)
      (.binaryOp acc (if b then .STAR else .SLASH) (astP p)) rest f htl hstop
      (by omega)

/-- The parser maps the tokens of a `factor` back to its AST. -/
theorem parseF (fc : FactorE) :
    ∀ (off : Nat) (rest : List Token) (fuel : Nat),
    wfF fc → stopFactorTok rest → 2 * ntF fc + 3 ≤ fuel →
    factorF fuel (toksF fc off ++ rest) = .ok (astF fc, rest) := by
  cases fc with
  | mk h tl =>
    intro off rest fuel hwf hstop hfuel
    obtain ⟨hh, htl⟩ := hwf
    simp only [ntF] at hfuel
    obtain ⟨f, rfl⟩ : ∃ f, fuel = f + 1 := ⟨fuel - 1, by omega⟩
    have hP := parseP h off (toksFT tl (off + (renderP h).length) ++ rest) f hh
      (headIsNotDice_toksFT tl _ hstop) (by omega)
    simp only [toksF, List.append_assoc]
    rw [factorF_eq f _ _ _ hP]
    exact parseFT tl (off + (renderP h).length) (astP h) rest f htl hstop
      (by omega)

/-- The term loop consumes a term tail, folding it onto the accumulator
left-associatively. -/
theorem parseTT (tl : TTail) :
    ∀ (off : Nat) (acc : ASTNode) (rest : List Token) (fuel : Nat),
    wfTT tl → stopTermTok rest → 2 * ntTT tl + 2 ≤ fuel →
    termLoopF fuel acc (toksTT tl off ++ rest) = .ok (astTT acc tl, rest) := by
  cases tl with
  | nil =>
    intro off acc rest fuel hwf hstop hfuel
    obtain ⟨f, rfl⟩ : ∃ f, fuel = f + 1 := ⟨fuel - 1, by omega⟩
    simp only [toksTT, List.nil_append]
    match rest with
    | [] => exact hstop.elim
    | t :: ts => exact termLoopF_exit f acc t ts hstop.2.1 hstop.1
  | cons b fc tl =>
    intro off acc rest fuel hwf hstop hfuel
    obtain ⟨hf, htl⟩ := hwf
    simp only [ntTT] at hfuel
    obtain ⟨f, rfl⟩ : ∃ f, fuel = f + 1 := ⟨fuel - 1, by omega⟩
    have hF := parseF fc (off + 1) (toksTT tl (off + 1 + (renderF fc).length) ++ rest)
      f hf (stopFactorTok_toksTT tl _ hstop) (by omega)
    have hty : (if b then (⟨.PLUS, "+", off, 0⟩ : Token)
        else ⟨.MINUS, "-", off, 0⟩).type = .MINUS ∨
        (if b then (⟨.PLUS, "+", off, 0⟩ : Token)
          else ⟨.MINUS, "-", off, 0⟩).type = .PLUS := by
      cases b
      · exact Or.inl rfl
      · exact Or.inr rfl
    have hop : (if (if b then (⟨.PLUS, "+", off, 0⟩ : Token)
        else ⟨.MINUS, "-", off, 0⟩).type = .MINUS then OperatorType.MINUS
          else OperatorType.PLUS) = (if b then .PLUS else .MINUS) := by
      cases b <;> rfl
    have hstep := termLoopF_step f acc (astF fc)
      (if b then (⟨.PLUS, "+", off, 0⟩ : Token) else ⟨.MINUS, "-", off, 0⟩)
      _ _ hty hF
    rw [hop] at hstep
    simp only [toksTT, List.cons_append, List.append_assoc]
    rw [hstep]
    exact parseTT tl (off + 1 + (renderF fc).length)
      (.binaryOp acc (if b then .PLUS else .MINUS) (astF fc)) rest f htl hstop
      (by omega)

/-- The parser maps the tokens of a `term` back to its AST. -/
theorem parseT (t : TermE) :
    ∀ (off : Nat) (rest : List Token) (fuel : Nat),
    wfT t → stopTermTok rest → 2 * ntT t + 4 ≤ fuel →
    termF fuel (toksT t off ++ rest) = .ok (astT t, rest) := by
  cases t with
  | mk h tl =>
    intro off rest fuel hwf hstop hfuel
    obtain ⟨hh, htl⟩ := hwf
    simp only [ntT] at hfuel
    obtain ⟨f, rfl⟩ : ∃ f, fuel = f + 1 := ⟨fuel - 1, by omega⟩
    have hF := parseF h off (toksTT tl (off + (renderF h).length) ++ rest) f hh
      (stopFactorTok_toksTT tl _ hstop) (by omega)
    simp only [toksT, List.append_assoc]
    rw [termF_eq f _ _ _ hF]
    exact parseTT tl (off + (renderF h).length) (astF h) rest f htl hstop
      (by omega)

end

theorem lexCons_congr (expr : String) (c : Char) (cs : List Char) (off : Nat)
    (go1 go2 : List Char → Nat → List Token × List DiceNotationError × Nat)
    (h : ∀ cs' off', cs'.length ≤ cs.length → go1 cs' off' = go2 cs' off') :
    lexCons expr c cs off go1 = lexCons expr c cs off go2 := by
  have hcs : ∀ off', go1 cs off' = go2 cs off' := fun off' => h cs off' le_rfl
  simp only [lexCons]
  by_cases h1 : isSpaceChar c = true
  · rw [if_pos h1, if_pos h1, hcs]
  rw [if_neg h1, if_neg h1]
  by_cases h2 : isDigit c = true
  · rw [if_pos h2, if_pos h2]
    have hlen : ((c :: cs).dropWhile isDigit).length ≤ cs.length := by
      rw [List.dropWhile_cons_of_pos h2]
      exact length_dropWhile_le isDigit cs
    rw [h _ _ hlen]
  rw [if_neg h2, if_neg h2]
  by_cases h3 : c = 'd'
  · rw [if_pos h3, if_pos h3, hcs]
  rw [if_neg h3, if_neg h3]
  by_cases h4 : c = '+'
  · rw [if_pos h4, if_pos h4, hcs]
  rw [if_neg h4, if_neg h4]
  by_cases h5 : c = '-'
  · rw [if_pos h5, if_pos h5, hcs]
  rw [if_neg h5, if_neg h5]
  by_cases h6 : c = '*'
  · rw [if_pos h6, if_pos h6, hcs]
  rw [if_neg h6, if_neg h6]
  by_cases h7 : c = '/'
  · rw [if_pos h7, if_pos h7, hcs]
  rw [if_neg h7, if_neg h7]
  by_cases h8 : c = '('
  · rw [if_pos h8, if_pos h8, hcs]
  rw [if_neg h8, if_neg h8]
  by_cases h9 : c = ')'
  · rw [if_pos h9, if_pos h9, hcs]
  rw [if_neg h9, if_neg h9]
  by_cases h10 : c = 'k'
  · rw [if_pos h10, if_pos h10]
    cases cs with
    | nil =>
      exact congrArg
        (fun r => (r.1, ⟨"Unexpected k", expr, off + 1⟩ :: r.2.1, r.2.2))
        (h [] (off + 1) (by simp))
    | cons c2 cs2 =>
      by_cases hc2 : c2 = 'h'
      · subst hc2
        exact congrArg
          (fun r => ((⟨.KEEP_HIGHEST, "kh", off + 1, 0⟩ : Token) :: r.1, r.2))
          (h cs2 (off + 2) (Nat.le_succ _))
      by_cases hc2l : c2 = 'l'
      · subst hc2l
        exact congrArg
          (fun r => ((⟨.KEEP_LOWEST, "kh", off + 1, 0⟩ : Token) :: r.1, r.2))
          (h cs2 (off + 2) (Nat.le_succ _))
      have key := h (c2 :: cs2) (off + 1) le_rfl
      split
      next heq => injection heq with ha; exact absurd ha hc2
      next heq => injection heq with ha; exact absurd ha hc2l
      next => rw [key]
  rw [if_neg h10, if_neg h10]
  by_cases h11 : c = 'h'
  · rw [if_pos h11, if_pos h11, hcs]
  rw [if_neg h11, if_neg h11]
  by_cases h12 : c = 'l'
  · rw [if_pos h12, if_pos h12, hcs]
  rw [if_neg h12, if_neg h12, hcs]

/-- The scan loop's result does not depend on the fuel once the fuel covers
the remaining characters (each iteration consumes at least one). -/
theorem lexGo_fuel_eq (expr : String) :
    ∀ n f (cs : List Char) (off : Nat), cs.length ≤ n → cs.length ≤ f →
    lexGo expr f cs off = lexGo expr n cs off := by
  intro n
  induction n with
  | zero =>
    intro f cs off hn hf
    have hnil : cs = [] := List.eq_nil_of_length_eq_zero (Nat.le_zero.mp hn)
    subst hnil
    rw [lexGo_nil, lexGo_nil]
  | succ n ih =>
    intro f cs off hn hf
    cases cs with
    | nil => rw [lexGo_nil, lexGo_nil]
    | cons c cs2 =>
      simp only [List.length_cons] at hn hf
      obtain ⟨f2, rfl⟩ : ∃ f2, f = f2 + 1 := ⟨f - 1, by omega⟩
      show lexCons expr c cs2 off (lexGo expr f2) =
        lexCons expr c cs2 off (lexGo expr n)
      apply lexCons_congr
      intro cs' off' hlen
      exact ih f2 cs' off' (by omega) (by omega)

theorem lexGo_irrel (expr : String) {f1 f2 : Nat} {cs : List Char}
    {off : Nat} (h1 : cs.length ≤ f1) (h2 : cs.length ≤ f2) :
    lexGo expr f1 cs off = lexGo expr f2 cs off :=
  (lexGo_fuel_eq expr cs.length f1 cs off le_rfl h1).trans
    (lexGo_fuel_eq expr cs.length f2 cs off le_rfl h2).symm

theorem takeWhile_app {α : Type _} {p : α → Bool} :
    ∀ l1 l2 : List α, (∀ c ∈ l1, p c = true) →
    (l1 ++ l2).takeWhile p = l1 ++ l2.takeWhile p
  | [], _, _ => rfl
  | c :: l1, l2, h => by
    rw [List.cons_append, List.takeWhile_cons_of_pos (h c (by simp)),
      takeWhile_app l1 l2 (fun c hc => h c (by simp [hc])), List.cons_append]

theorem dropWhile_app {α : Type _} {p : α → Bool} :
    ∀ l1 l2 : List α, (∀ c ∈ l1, p c = true) →
    (l1 ++ l2).dropWhile p = l2.dropWhile p
  | [], _, _ => rfl
  | c :: l1, l2, h => by
    rw [List.cons_append, List.dropWhile_cons_of_pos (h c (by simp)),
      dropWhile_app l1 l2 (fun c hc => h c (by simp [hc]))]

/-- A character sequence that cannot extend a preceding digit run. -/
def headNotDigit (cs : List Char) : Prop :=
  match cs with
  | c :: _ => isDigit c = false
  | [] => True

theorem headNotDigit_cons {c : Char} {l : List Char} (h : isDigit c = false) :
    headNotDigit (c :: l) := h

theorem takeWhile_headNot {cs : List Char} (h : headNotDigit cs) :
    cs.takeWhile isDigit = [] := by
  cases cs with
  | nil => rfl
  | cons c l =>
    exact List.takeWhile_cons_of_neg (by simp [show isDigit c = false from h])

theorem dropWhile_headNot {cs : List Char} (h : headNotDigit cs) :
    cs.dropWhile isDigit = cs := by
  cases cs with
  | nil => rfl
  | cons c l =>
    exact List.dropWhile_cons_of_neg (by simp [show isDigit c = false from h])

theorem lexCons_open (expr : String) (cs : List Char) (off : Nat)
    (go : List Char → Nat → List Token × List DiceNotationError × Nat) :
    lexCons expr '(' cs off go =
      (⟨.PAREN_OPEN, "(", off, 0⟩ :: (go cs (off + 1)).1,
        (go cs (off + 1)).2) := rfl

theorem lexCons_close (expr : String) (cs : List Char) (off : Nat)
    (go : List Char → Nat → List Token × List DiceNotationError × Nat) :
    lexCons expr ')' cs off go =
      (⟨.PAREN_CLOSE, ")", off, 0⟩ :: (go cs (off + 1)).1,
        (go cs (off + 1)).2) := rfl

theorem lexCons_mulDiv (expr : String) (b : Bool) (cs : List Char) (off : Nat)
    (go : List Char → Nat → List Token × List DiceNotationError × Nat) :
    lexCons expr (if b then '*' else '/') cs off go =
      ((if b then (⟨.STAR, "*", off, 0⟩ : Token) else ⟨.SLASH, "/", off, 0⟩) ::
          (go cs (off + 1)).1,
        (go cs (off + 1)).2) := by
  cases b <;> rfl

theorem lexCons_addSub (expr : String) (b : Bool) (cs : List Char) (off : Nat)
    (go : List Char → Nat → List Token × List DiceNotationError × Nat) :
    lexCons expr (if b then '+' else '-') cs off go =
      ((if b then (⟨.PLUS, "+", off, 0⟩ : Token) else ⟨.MINUS, "-", off, 0⟩) ::
          (go cs (off + 1)).1,
        (go cs (off + 1)).2) := by
  cases b <;> rfl

theorem lexCons_digitRun (expr : String) (c : Char) (cs : List Char)
    (off : Nat)
    (go : List Char → Nat → List Token × List DiceNotationError × Nat)
    (hd : isDigit c = true) :
    lexCons expr c cs off go =
      (⟨.NUMBER, String.mk ((c :: cs).takeWhile isDigit), off,
          natOfDigits ((c :: cs).takeWhile isDigit)⟩ ::
            (go ((c :: cs).dropWhile isDigit)
              (off + ((c :: cs).takeWhile isDigit).length)).1,
        (go ((c :: cs).dropWhile isDigit)
          (off + ((c :: cs).takeWhile isDigit).length)).2) := by
  simp only [lexCons]
  rw [if_neg (by simp [digit_not_space hd]), if_pos hd]

theorem headNotDigit_renderFT (tl : FTail) (rest : List Char)
    (h : headNotDigit rest) : headNotDigit (renderFT tl ++ rest) := by
  cases tl with
  | nil => simpa [renderFT] using h
  | cons b p tl =>
    cases b <;> simp only [renderFT, List.cons_append] <;>
      exact headNotDigit_cons (by decide)

theorem headNotDigit_renderTT (tl : TTail) (rest : List Char)
    (h : headNotDigit rest) : headNotDigit (renderTT tl ++ rest) := by
  cases tl with
  | nil => simpa [renderTT] using h
  | cons b f tl =>
    cases b <;> simp only [renderTT, List.cons_append] <;>
      exact headNotDigit_cons (by decide)

theorem lexGo_cons (expr : String) (f : Nat) (c : Char) (cs : List Char)
    (off : Nat) :
    lexGo expr (f + 1) (c :: cs) off = lexCons expr c cs off (lexGo expr f) :=
  rfl

mutual

/-- Scanning a well-formed `primary`'s text yields exactly its tokens, then
continues on the remaining characters. -/
theorem lexRenderP (p : PrimE) :
    ∀ (expr : String) (off : Nat) (rest : List Char) (fuel : Nat),
    wfP p → headNotDigit rest → (renderP p).length + rest.length ≤ fuel →
    lexGo expr fuel (renderP p ++ rest) off =
      (toksP p off ++
          (lexGo expr rest.length rest (off + (renderP p).length)).1,
        (lexGo expr rest.length rest (off + (renderP p).length)).2) := by
  cases p with
  | num ds =>
    intro expr off rest fuel hwf hnd hfuel
    obtain ⟨hne, hds⟩ := hwf
    obtain ⟨d, ds2, rfl⟩ : ∃ d ds2, ds = d :: ds2 := by
      cases ds with
      | nil => exact absurd rfl hne
      | cons d ds2 => exact ⟨d, ds2, rfl⟩
    simp only [renderP, toksP, List.length_cons] at hfuel ⊢
    obtain ⟨f, rfl⟩ : ∃ f, fuel = f + 1 := ⟨fuel - 1, by omega⟩
    rw [List.cons_append, lexGo_cons,
      lexCons_digitRun _ _ _ _ _ (hds d (by simp))]
    have ht : (d :: (ds2 ++ rest)).takeWhile isDigit = d :: ds2 := by
      rw [← List.cons_append, takeWhile_app _ _ hds, takeWhile_headNot hnd,
        List.append_nil]
    have hdr : (d :: (ds2 ++ rest)).dropWhile isDigit = rest := by
      rw [← List.cons_append, dropWhile_app _ _ hds, dropWhile_headNot hnd]
    rw [ht, hdr,
      lexGo_irrel expr (show rest.length ≤ f by omega) le_rfl]
    simp
  | paren t =>
    intro expr off rest fuel hwf hnd hfuel
    simp only [renderP, toksP, List.length_cons, List.length_append] at hfuel ⊢
    obtain ⟨f, rfl⟩ : ∃ f, fuel = f + 1 := ⟨fuel - 1, by omega⟩
    have hl : ('(' :: renderT t ++ [')']) ++ rest =
        '(' :: (renderT t ++ (')' :: rest)) := by simp
    rw [hl, lexGo_cons, lexCons_open,
      lexRenderT t expr (off + 1) (')' :: rest) f hwf
        (headNotDigit_cons (by decide))
        (by simp only [List.length_cons] at hfuel ⊢; omega)]
    rw [show (')' :: rest).length = rest.length + 1 from rfl, lexGo_cons,
      lexCons_close]
    have ho : off + 1 + (renderT t).length + 1 =
        off + ((renderT t).length + 1 + 1) := by omega
    rw [ho]
    simp [List.append_assoc]
  termination_by sizeOf p

/-- Scanning a well-formed factor tail's text. -/
theorem lexRenderFT (tl : FTail) :
    ∀ (expr : String) (off : Nat) (rest : List Char) (fuel : Nat),
    wfFT tl → headNotDigit rest → (renderFT tl).length + rest.length ≤ fuel →
    lexGo expr fuel (renderFT tl ++ rest) off =
      (toksFT tl off ++
          (lexGo expr rest.length rest (off + (renderFT tl).length)).1,
        (lexGo expr rest.length rest (off + (renderFT tl).length)).2) := by
  cases tl with
  | nil =>
    intro expr off rest fuel hwf hnd hfuel
    simp only [renderFT, toksFT, List.length_nil, List.nil_append,
      List.length_append, Nat.zero_add, Nat.add_zero] at hfuel ⊢
    rw [lexGo_irrel expr (show rest.length ≤ fuel by omega) le_rfl]
  | cons b p tl =>
    intro expr off rest fuel hwf hnd hfuel
    obtain ⟨hp, htl⟩ := hwf
    simp only [renderFT, toksFT, List.length_cons, List.length_append]
      at hfuel ⊢
    obtain ⟨f, rfl⟩ : ∃ f, fuel = f + 1 := ⟨fuel - 1, by omega⟩
    have hl : ((if b then '*' else '/') :: renderP p ++ renderFT tl) ++ rest =
        (if b then '*' else '/') :: (renderP p ++ (renderFT tl ++ rest)) := by
      simp
    rw [hl, lexGo_cons, lexCons_mulDiv,
      lexRenderP p expr (off + 1) (renderFT tl ++ rest) f hp
        (headNotDigit_renderFT tl rest hnd)
        (by simp only [List.length_append]; omega),
      lexRenderFT tl expr (off + 1 + (renderP p).length) rest
        (renderFT tl ++ rest).length htl hnd
        (by simp only [List.length_append]; omega)]
    have ho : off + 1 + (renderP p).length + (renderFT tl).length =
        off + ((renderP p).length + 1 + (renderFT tl).length) := by omega
    rw [ho]
    simp [List.append_assoc]
  termination_by sizeOf tl

/-- Scanning a well-formed `factor`'s text. -/
theorem lexRenderF (fc : FactorE) :
    ∀ (expr : String) (off : Nat) (rest : List Char) (fuel : Nat),
    wfF fc → headNotDigit rest → (renderF fc).length + rest.length ≤ fuel →
    lexGo expr fuel (renderF fc ++ rest) off =
      (toksF fc off ++
          (lexGo expr rest.length rest (off + (renderF fc).length)).1,
        (lexGo expr rest.length rest (off + (renderF fc).length)).2) := by
  cases fc with
  | mk h tl =>
    intro expr off rest fuel hwf hnd hfuel
    obtain ⟨hh, htl⟩ := hwf
    simp only [renderF, toksF, List.length_append] at hfuel ⊢
    rw [List.append_assoc,
      lexRenderP h expr off (renderFT tl ++ rest) fuel hh
        (headNotDigit_renderFT tl rest hnd)
        (by simp only [List.length_append]; omega),
      lexRenderFT tl expr (off + (renderP h).length) rest
        (renderFT tl ++ rest).length htl hnd
        (by simp only [List.length_append]; omega)]
    have ho : off + (renderP h).length + (renderFT tl).length =
        off + ((renderP h).length + (renderFT tl).length) := by omega
    rw [ho]
    simp [List.append_assoc]
  termination_by sizeOf fc

/-- Scanning a well-formed term tail's text. -/
theorem lexRenderTT (tl : TTail) :
    ∀ (expr : String) (off : Nat) (rest : List Char) (fuel : Nat),
    wfTT tl → headNotDigit rest → (renderTT tl).length + rest.length ≤ fuel →
    lexGo expr fuel (renderTT tl ++ rest) off =
      (toksTT tl off ++
          (lexGo expr rest.length rest (off + (renderTT tl).length)).1,
        (lexGo expr rest.length rest (off + (renderTT tl).length)).2) := by
  cases tl with
  | nil =>
    intro expr off rest fuel hwf hnd hfuel
    simp only [renderTT, toksTT, List.length_nil, List.nil_append,
      List.length_append, Nat.zero_add, Nat.add_zero] at hfuel ⊢
    rw [lexGo_irrel expr (show rest.length ≤ fuel by omega) le_rfl]
  | cons b fc tl =>
    intro expr off rest fuel hwf hnd hfuel
    obtain ⟨hf, htl⟩ := hwf
    simp only [renderTT, toksTT, List.length_cons, List.length_append]
      at hfuel ⊢
    obtain ⟨f, rfl⟩ : ∃ f, fuel = f + 1 := ⟨fuel - 1, by omega⟩
    have hl : ((if b then '+' else '-') :: renderF fc ++ renderTT tl) ++ rest =
        (if b then '+' else '-') :: (renderF fc ++ (renderTT tl ++ rest)) := by
      simp
    rw [hl, lexGo_cons, lexCons_addSub,
      lexRenderF fc expr (off + 1) (renderTT tl ++ rest) f hf
        (headNotDigit_renderTT tl rest hnd)
        (by simp only [List.length_append]; omega),
      lexRenderTT tl expr (off + 1 + (renderF fc).length) rest
        (renderTT tl ++ rest).length htl hnd
        (by simp only [List.length_append]; omega)]
    have ho : off + 1 + (renderF fc).length + (renderTT tl).length =
        off + ((renderF fc).length + 1 + (renderTT tl).length) := by omega
    rw [ho]
    simp [List.append_assoc]
  termination_by sizeOf tl

/-- Scanning a well-formed `term`'s text. -/
theorem lexRenderT (t : TermE) :
    ∀ (expr : String) (off : Nat) (rest : List Char) (fuel : Nat),
    wfT t → headNotDigit rest → (renderT t).length + rest.length ≤ fuel →
    lexGo expr fuel (renderT t ++ rest) off =
      (toksT t off ++
          (lexGo expr rest.length rest (off + (renderT t).length)).1,
        (lexGo expr rest.length rest (off + (renderT t).length)).2) := by
  cases t with
  | mk h tl =>
    intro expr off rest fuel hwf hnd hfuel
    obtain ⟨hh, htl⟩ := hwf
    simp only [renderT, toksT, List.length_append] at hfuel ⊢
    rw [List.append_assoc,
      lexRenderF h expr off (renderTT tl ++ rest) fuel hh
        (headNotDigit_renderTT tl rest hnd)
        (by simp only [List.length_append]; omega),
      lexRenderTT tl expr (off + (renderF h).length) rest
        (renderTT tl ++ rest).length htl hnd
        (by simp only [List.length_append]; omega)]
    have ho : off + (renderF h).length + (renderTT tl).length =
        off + ((renderF h).length + (renderTT tl).length) := by omega
    rw [ho]
    simp [List.append_assoc]
  termination_by sizeOf t

end

mutual

theorem toksP_length (p : PrimE) : ∀ off, (toksP p off).length = ntP p := by
  cases p with
  | num ds => intro off; simp [toksP, ntP]
  | paren t =>
    intro off
    simp only [toksP, ntP, List.length_cons, List.length_append,
      List.length_nil, toksT_length t]

theorem toksF_length (fc : FactorE) : ∀ off, (toksF fc off).length = ntF fc := by
  cases fc with
  | mk h tl =>
    intro off
    simp only [toksF, ntF, List.length_append, toksP_length h,
      toksFT_length tl]

theorem toksFT_length (tl : FTail) : ∀ off, (toksFT tl off).length = ntFT tl := by
  cases tl with
  | nil => intro off; simp [toksFT, ntFT]
  | cons b p tl =>
    intro off
    simp only [toksFT, ntFT, List.length_cons, List.length_append,
      toksP_length p, toksFT_length tl]
    omega

theorem toksT_length (t : TermE) : ∀ off, (toksT t off).length = ntT t := by
  cases t with
  | mk h tl =>
    intro off
    simp only [toksT, ntT, List.length_append, toksF_length h,
      toksTT_length tl]

theorem toksTT_length (tl : TTail) : ∀ off, (toksTT tl off).length = ntTT tl := by
  cases tl with
  | nil => intro off; simp [toksTT, ntTT]
  | cons b f tl =>
    intro off
    simp only [toksTT, ntTT, List.length_cons, List.length_append,
      toksF_length f, toksTT_length tl]
    omega

end

/-- Lexing the rendered text of a well-formed expression yields exactly its
tokens followed by `EOF` at the text's length. -/
theorem lex_renderT (t : TermE) (hwf : wfT t) :
    lex (String.mk (renderT t)) =
      .ok (toksT t 0 ++ [⟨.EOF, "", (renderT t).length, 0⟩]) := by
  have key : lexGo (String.mk (renderT t))
      ((String.mk (renderT t)).data.length + 1) (String.mk (renderT t)).data 0
      = (toksT t 0, [], (renderT t).length) := by
    have hdata : (String.mk (renderT t)).data = renderT t := rfl
    rw [hdata]
    have := lexRenderT t (String.mk (renderT t)) 0 [] ((renderT t).length + 1)
      hwf trivial (by simp)
    rw [List.append_nil] at this
    rw [this, lexGo_nil]
    simp
  simp only [lex, key]

/-- Parsing the token list of a well-formed expression (with the trailing
`EOF`) rebuilds its AST. -/
theorem parse_renderT (t : TermE) (hwf : wfT t) :
    parse (toksT t 0 ++ [⟨.EOF, "", (renderT t).length, 0⟩]) = .ok (astT t) := by
  unfold parse
  rw [parseT t 0 [⟨.EOF, "", (renderT t).length, 0⟩] _ hwf
    (by simp [stopTermTok])
    (by simp only [parseFuel, List.length_append, List.length_cons,
          List.length_nil, toksT_length t]
        omega)]
  rfl

/-- C3: for every valid expression built only from integer literals, the
operators `+ - * /`, and parentheses (formalized as a well-formed `TermE`
of that grammar, rendered to its source text, and restricted by `noDivT`
to expressions with no zero divisor, where rational arithmetic agrees
with JS number arithmetic), `roll` succeeds and returns the exact
arithmetic value with non-truncating division, with `*`/`/` binding
tighter than `+`/`-` and both levels left-associative (the shape of
`aevalT`); in particular `roll "2 * 3 + 1" = 7`, `roll "1 + 2 * 3" = 7`,
and `roll "(1 + 2) * 3" = 9`. -/
theorem c3_arithmetic_precedence :
    (∀ (t : TermE) (σ : Type) (step : σ → Nat → ℚ × σ) (s : σ),
      wfT t → noDivT t →
      (roll (String.mk (renderT t)) step s none).map (·.result) =
        .ok (aevalT t)) ∧
    (roll "2 * 3 + 1" (fun (s : Unit) _ => ((0 : ℚ), s)) () none).map
      (·.result) = .ok 7 ∧
    (roll "1 + 2 * 3" (fun (s : Unit) _ => ((0 : ℚ), s)) () none).map
      (·.result) = .ok 7 ∧
    (roll "(1 + 2) * 3" (fun (s : Unit) _ => ((0 : ℚ), s)) () none).map
      (·.result) = .ok 9 := by
  refine ⟨?_, ?_, ?_, ?_⟩
  · intro t σ step s hwf hnd
    unfold roll
    rw [lex_renderT t hwf]
    dsimp only
    rw [parse_renderT t hwf]
    dsimp only
    simp only [Except.map]
    exact congrArg Except.ok ((evalArithT t σ step s).1)
  · with_unfolding_all decide
  · with_unfolding_all decide
  · with_unfolding_all decide

/-- Witness for C3: the expression `(8+4)/2*3-1` (one of each operator,
with parentheses) evaluates to 17. -/
theorem c3_arithmetic_precedence_witness :
    wfT (TermE.mk
        (FactorE.mk
          (PrimE.paren (TermE.mk (FactorE.mk (PrimE.num ['8']) .nil)
            (TTail.cons true (FactorE.mk (PrimE.num ['4']) .nil) .nil)))
          (FTail.cons false (PrimE.num ['2'])
            (FTail.cons true (PrimE.num ['3']) .nil)))
        (TTail.cons false (FactorE.mk (PrimE.num ['1']) .nil) .nil)) ∧
    noDivT (TermE.mk
        (FactorE.mk
          (PrimE.paren (TermE.mk (FactorE.mk (PrimE.num ['8']) .nil)
            (TTail.cons true (FactorE.mk (PrimE.num ['4']) .nil) .nil)))
          (FTail.cons false (PrimE.num ['2'])
            (FTail.cons true (PrimE.num ['3']) .nil)))
        (TTail.cons false (FactorE.mk (PrimE.num ['1']) .nil) .nil)) ∧
    (roll (String.mk (renderT (TermE.mk
        (FactorE.mk
          (PrimE.paren (TermE.mk (FactorE.mk (PrimE.num ['8']) .nil)
            (TTail.cons true (FactorE.mk (PrimE.num ['4']) .nil) .nil)))
          (FTail.cons false (PrimE.num ['2'])
            (FTail.cons true (PrimE.num ['3']) .nil)))
        (TTail.cons false (FactorE.mk (PrimE.num ['1']) .nil) .nil))))
      (fun (s : Unit) _ => ((0 : ℚ), s)) () none).map (·.result) =
        .ok (aevalT (TermE.mk
        (FactorE.mk
          (PrimE.paren (TermE.mk (FactorE.mk (PrimE.num ['8']) .nil)
            (TTail.cons true (FactorE.mk (PrimE.num ['4']) .nil) .nil)))
          (FTail.cons false (PrimE.num ['2'])
            (FTail.cons true (PrimE.num ['3']) .nil)))
        (TTail.cons false (FactorE.mk (PrimE.num ['1']) .nil) .nil))) := by
  have hwf : wfT (TermE.mk
      (FactorE.mk
        (PrimE.paren (TermE.mk (FactorE.mk (PrimE.num ['8']) .nil)
          (TTail.cons true (FactorE.mk (PrimE.num ['4']) .nil) .nil)))
        (FTail.cons false (PrimE.num ['2'])
          (FTail.cons true (PrimE.num ['3']) .nil)))
      (TTail.cons false (FactorE.mk (PrimE.num ['1']) .nil) .nil)) :=
    by simp only [wfT, wfF, wfFT, wfP, wfTT]; decide
  have hnd : noDivT (TermE.mk
      (FactorE.mk
        (PrimE.paren (TermE.mk (FactorE.mk (PrimE.num ['8']) .nil)
          (TTail.cons true (FactorE.mk (PrimE.num ['4']) .nil) .nil)))
        (FTail.cons false (PrimE.num ['2'])
          (FTail.cons true (PrimE.num ['3']) .nil)))
      (TTail.cons false (FactorE.mk (PrimE.num ['1']) .nil) .nil)) := by
    simp only [noDivT, noDivF, noDivFT, noDivP, noDivTT, aevalP]
    with_unfolding_all decide
  exact ⟨hwf, hnd,
    c3_arithmetic_precedence.1 _ Unit (fun (s : Unit) _ => ((0 : ℚ), s)) ()
      hwf hnd⟩

end Roll
